import Mathlib

/-!
Formal model of the news pipeline in `src/main.py` (itsyebekhe/rasadai).

The pipeline logic is embedded shallowly:

* Python strings are modeled as Lean `String` (a list of unicode characters);
  character-class predicates (`\w`, `\s`, `str.lower`, `str.isalpha`) are
  modeled at the ASCII level, which covers every string the claims touch.
* Python `set` is modeled as `Finset String`.
* Python floats that are only ever compared or sorted (timestamps, the
  Jaccard similarity threshold) are modeled exactly: timestamps as `Int`,
  and the comparison `len(i)/len(u) > 0.5` as `u.card < 2 * i.card`,
  which is equivalent for a nonempty union.
* Network calls and the wall clock are inputs: the AI response of each retry
  attempt, the resolved redirect target, and the current time are parameters
  of the functions that consume them.
* A Python function that can raise and is wrapped in `try/except` is modeled
  with `Option` (`none` = the exception path).
-/

namespace Rasadai

/-! ### ASCII character classes and Python string helpers -/

/-- ASCII model of `str.lower` applied to one character: maps A-Z to a-z and
leaves everything else unchanged. -/
def pyCharLower (c : Char) : Char :=
  if 65 ≤ c.toNat ∧ c.toNat ≤ 90 then Char.ofNat (c.toNat + 32) else c

/-- Model of `str.lower` (ASCII fragment). -/
def pyLower (s : String) : String :=
  String.mk (s.data.map pyCharLower)

/-- ASCII model of the regex class `\w` (word character): letter, digit or
underscore. -/
def isWordCharB (c : Char) : Bool :=
  decide ((97 ≤ c.toNat ∧ c.toNat ≤ 122) ∨ (65 ≤ c.toNat ∧ c.toNat ≤ 90) ∨
    (48 ≤ c.toNat ∧ c.toNat ≤ 57) ∨ c = '_')

/-- ASCII model of the regex class `\s` / `str.split()` whitespace. -/
def isSpaceB (c : Char) : Bool :=
  decide (c = ' ' ∨ c = '\t' ∨ c = '\n' ∨ c = '\r' ∨ c.toNat = 11 ∨ c.toNat = 12)

/-- Decimal digit test used by the model of `int(...)`. -/
def isDigitB (c : Char) : Bool :=
  decide (48 ≤ c.toNat ∧ c.toNat ≤ 57)

/-- Tests whether `pat` is a leading run of `l` (model of `str.startswith` on
character lists). -/
def startsWithL : List Char → List Char → Bool
  | [], _ => true
  | _ :: _, [] => false
  | a :: ps, b :: ls => a = b && startsWithL ps ls

/-- Tests whether `pat` occurs as a contiguous run of `l` (model of the Python
substring test `pat in l`). -/
def hasRun (pat : List Char) : List Char → Bool
  | [] => startsWithL pat []
  | l@(_ :: t) => startsWithL pat l || hasRun pat t

/-- Model of the Python substring test `pat in s` on strings. -/
def hasRunStr (pat s : String) : Bool :=
  hasRun pat.data s.data

/-- Part of `l` strictly before the last occurrence of `sep`, when `sep`
occurs in `l`. -/
def beforeLastSep (sep : List Char) : List Char → Option (List Char)
  | [] => none
  | c :: t =>
    match beforeLastSep sep t with
    | some r => some (c :: r)
    | none => if startsWithL sep (c :: t) then some [] else none

/-- Model of `title.rsplit(' - ', 1)[0]` in `process_item` and `run`. -/
def rsplitTitle (s : String) : String :=
  match beforeLastSep [' ', '-', ' '] s.data with
  | some r => String.mk r
  | none => s

/-- Splits `l` at the first occurrence of `sep` (model of `str.split(sep, 1)`
and of `str.find`): `some (a, b)` means `l = a ++ sep :: b` with `sep ∉ a`. -/
def splitOnceChar (sep : Char) : List Char → Option (List Char × List Char)
  | [] => none
  | c :: t =>
    if c = sep then some ([], t)
    else (splitOnceChar sep t).map fun p => (c :: p.1, p.2)

/-- Model of `str.rstrip('/')`: removes every trailing `'/'`. -/
def rstripSlash (l : List Char) : List Char :=
  (l.reverse.dropWhile fun c => c = '/').reverse

/-! ### Normalizer: `_normalize_text` and `_get_tokens` (src/main.py L84-93) -/

/-- Model of `_normalize_text`: `re.sub(r'\W+', '', text).lower()`, with the
empty-input guard `if not text: return ""` (which is subsumed by the
computation on `""`). -/
def normalizeText (text : String) : String :=
  String.mk ((text.data.filter fun c => isWordCharB c).map pyCharLower)

/-- Stop-word list of `_get_tokens`. -/
def STOP_WORDS : List String :=
  ["a", "an", "the", "and", "or", "in", "on", "at", "to", "for", "of",
   "with", "by", "is", "are", "was", "news", "report", "breaking"]

/-- Splits a character list on whitespace runs, dropping empty words
(model of `str.split()` with no argument). -/
def splitWsAux : List Char → List Char → List (List Char)
  | [], cur => if cur = [] then [] else [cur.reverse]
  | c :: t, cur =>
    if isSpaceB c then
      (if cur = [] then splitWsAux t [] else cur.reverse :: splitWsAux t [])
    else splitWsAux t (c :: cur)

/-- Whitespace split of a character list. -/
def splitWs (l : List Char) : List (List Char) :=
  splitWsAux l []

/-- Model of `_get_tokens`: lowercase, keep only `\w` and `\s` characters,
split on whitespace, form a set, remove stop words. -/
def getTokens (text : String) : Finset String :=
  if text = "" then ∅
  else
    let clean := (text.data.map pyCharLower).filter fun c => isWordCharB c || isSpaceB c
    ((splitWs clean).map String.mk).toFinset \ STOP_WORDS.toFinset

/-! ### Canonical URLs: `_clean_url` (src/main.py L73-82)

`_clean_url` calls `urllib.parse.urlparse`, rebuilds the URL from
`(scheme, netloc, path, '', '', '')` with `urlunparse`, and strips trailing
slashes; any exception returns the input unchanged.  The CPython parsing
routine is embedded below for ASCII URLs: `urlsplit` (leading C0-control
strip, tab/CR/LF removal, scheme detection, netloc extraction, fragment and
query split) followed by the `urlparse` params split.  Bracketed-host
(IPv6) validation is modeled conservatively as the exception path. -/

/-- Scheme characters of `urllib.parse` (`scheme_chars`): ASCII letters,
digits, `+`, `-`, `.`. -/
def isSchemeChar (c : Char) : Bool :=
  decide ((97 ≤ c.toNat ∧ c.toNat ≤ 122) ∨ (65 ≤ c.toNat ∧ c.toNat ≤ 90) ∨
    (48 ≤ c.toNat ∧ c.toNat ≤ 57) ∨ c = '+' ∨ c = '-' ∨ c = '.')

/-- ASCII letter test (model of `url[0].isascii() and url[0].isalpha()`). -/
def isAsciiAlpha (c : Char) : Bool :=
  decide ((97 ≤ c.toNat ∧ c.toNat ≤ 122) ∨ (65 ≤ c.toNat ∧ c.toNat ≤ 90))

/-- The leading strip and unsafe-byte removal of `urlsplit`:
`url.lstrip(C0-control-or-space)` then removal of tab, CR, LF. -/
def stripUnsafe (l : List Char) : List Char :=
  (l.dropWhile fun c => decide (c.toNat ≤ 32)).filter
    fun c => decide (¬(c = '\t' ∨ c = '\r' ∨ c = '\n'))

/-- Scheme detection of `urlsplit`: if the part before the first `:` is
nonempty, starts with an ASCII letter and consists of scheme characters,
it is the (lowercased) scheme; otherwise the URL has no scheme. -/
def schemeSplit (l : List Char) : List Char × List Char :=
  match splitOnceChar ':' l with
  | some (c0 :: rest, post) =>
    if isAsciiAlpha c0 && rest.all isSchemeChar then
      ((c0 :: rest).map pyCharLower, post)
    else ([], l)
  | _ => ([], l)

/-- Characters that may appear in a netloc (`_splitnetloc` stops at the first
`/`, `?` or `#`). -/
def netChar (c : Char) : Bool :=
  decide (c ≠ '/' ∧ c ≠ '?' ∧ c ≠ '#')

/-- Netloc extraction of `urlsplit`: only if the remainder starts with `//`
(`url[:2] == '//'`).  Bracket characters in the netloc are modeled as the
`ValueError` path (`none`). -/
def netlocSplit (l : List Char) : Option (List Char × List Char) :=
  if l.take 2 = ['/', '/'] then
    let rest := l.drop 2
    let n := rest.takeWhile netChar
    if '[' ∈ n ∨ ']' ∈ n then none
    else some (n, rest.dropWhile netChar)
  else some ([], l)

/-- Fragment removal: `url.split('#', 1)[0]` when a `#` is present. -/
def dropFrag (l : List Char) : List Char :=
  match splitOnceChar '#' l with
  | some (a, _) => a
  | none => l

/-- Query removal: `url.split('?', 1)[0]` when a `?` is present. -/
def dropQuery (l : List Char) : List Char :=
  match splitOnceChar '?' l with
  | some (a, _) => a
  | none => l

/-- Part of `l` strictly before its last `'/'`, paired with the part after
it, when `l` contains a `'/'` (model of `url.rfind('/')`). -/
def splitLastSlash : List Char → Option (List Char × List Char)
  | [] => none
  | c :: t =>
    match splitLastSlash t with
    | some (a, b) => some (c :: a, b)
    | none => if c = '/' then some ([], t) else none

/-- The schemes for which `urlparse` splits params (`uses_params`). -/
def USES_PARAMS : List (List Char) :=
  ["", "ftp", "hdl", "prospero", "http", "imap", "https", "shttp", "rtsp",
   "rtspu", "sip", "sips", "mms", "sftp", "tel"].map String.data

/-- Model of `_splitparams`, keeping only the path part `url[:i]`: the params
start at the first `;` of the last path segment (or of the whole path when
it has no `/`). -/
def splitParamsPath (path : List Char) : List Char :=
  match splitLastSlash path with
  | some (pre, lastSeg) =>
    match splitOnceChar ';' lastSeg with
    | some (a, _) => pre ++ '/' :: a
    | none => path
  | none =>
    match splitOnceChar ';' path with
    | some (a, _) => a
    | none => path

/-- Params split of `urlparse`: applied only when the scheme uses params and
the path contains a `;`. -/
def paramsPath (scheme path : List Char) : List Char :=
  if scheme ∈ USES_PARAMS ∧ ';' ∈ path then splitParamsPath path else path

/-- Model of `urlparse(url)` restricted to the components `_clean_url` uses:
`some (scheme, netloc, path)`, or `none` for the exception path. -/
def pyUrlparse3 (url : List Char) : Option (List Char × List Char × List Char) :=
  let u := stripUnsafe url
  let sp := schemeSplit u
  match netlocSplit sp.2 with
  | none => none
  | some (netloc, rest) =>
    some (sp.1, netloc, paramsPath sp.1 (dropQuery (dropFrag rest)))

/-- Model of `urlunparse((scheme, netloc, path, '', '', ''))` =
`urlunsplit((scheme, netloc, path, '', ''))`. -/
def pyUrlunsplit3 (scheme netloc path : List Char) : List Char :=
  let core :=
    if netloc ≠ [] ∨ path.take 2 = ['/', '/'] then
      let p :=
        match path with
        | [] => []
        | c :: t => if c = '/' then c :: t else '/' :: c :: t
      '/' :: '/' :: (netloc ++ p)
    else path
  if scheme ≠ [] then scheme ++ ':' :: core else core

/-- A nonempty, already-lowercased scheme: an ASCII-letter head, scheme
characters throughout, fixed by lowercasing.  This is the shape of every
scheme `pyUrlparse3` returns. -/
def ValidLowerScheme (s : List Char) : Prop :=
  ∃ c cs, s = c :: cs ∧ isAsciiAlpha c = true ∧ cs.all isSchemeChar = true ∧
    (c :: cs).map pyCharLower = c :: cs

/-- No scheme can be split off `l`: either `l` has no colon, or the part
before its first colon is empty, does not start with an ASCII letter, or
contains a non-scheme character. -/
def noSchemeIn (l : List Char) : Prop :=
  ∀ a b, splitOnceChar ':' l = some (a, b) →
    a = [] ∨ ∃ c cs, a = c :: cs ∧
      (isAsciiAlpha c = false ∨ cs.all isSchemeChar = false)

/-- The invariant of the `(scheme, netloc, path)` triple that `pyUrlparse3`
produces from a semicolon-free URL; the idempotence of `_clean_url` on
such URLs rests on it. -/
def GoodTriple (s n p : List Char) : Prop :=
  (s = [] ∨ ValidLowerScheme s) ∧
  (∀ c ∈ n, netChar c = true ∧ c ≠ '[' ∧ c ≠ ']' ∧
    c ≠ '\t' ∧ c ≠ '\r' ∧ c ≠ '\n') ∧
  (∀ c ∈ p, c ≠ '?' ∧ c ≠ '#' ∧ c ≠ ';' ∧
    c ≠ '\t' ∧ c ≠ '\r' ∧ c ≠ '\n') ∧
  ((n ≠ [] ∨ p.take 2 = ['/', '/']) → (p = [] ∨ ∃ t, p = '/' :: t)) ∧
  ((s = [] ∧ n = [] ∧ p.take 2 ≠ ['/', '/']) →
    noSchemeIn p ∧ ∀ c cs, p = c :: cs → 32 < c.toNat)

/-- Model of `_clean_url` (src/main.py L73-82): empty or absent input yields
`""`; a parse exception returns the input unchanged; otherwise the URL is
rebuilt from scheme, netloc and path and trailing slashes are stripped. -/
def cleanUrl (url : String) : String :=
  if url = "" then ""
  else
    match pyUrlparse3 url.data with
    | none => url
    | some (s, n, p) => String.mk (rstripSlash (pyUrlunsplit3 s n p))

/-! ### Data model -/

/-- A JSON summary value: the AI may return a single string or a list of
strings (`send_digest_to_telegram` normalizes a string to a one-element
list). -/
inductive PySummary where
  | sstr (s : String)
  | slist (l : List String)
deriving DecidableEq

/-- A JSON value in the `urgency` field of an AI response, as consumed by
`int(ai.get('urgency', 3))`: an integer, a string, or `null`. -/
inductive PyUrgency where
  | vint (n : Int)
  | vstr (s : String)
  | vnull
deriving DecidableEq

/-- A processed news record, as built by `process_item` and stored in
`news.json`.  `url` is `Option` because `_resolve_final_url` can return
`None`; `timestamp` models the float epoch timestamp (only its ordering is
ever used); `sentiment` models the float score (only stored). -/
structure NewsItem where
  title_fa : String
  title_en : String
  summary : PySummary
  impact : String
  tag : String
  urgency : Int
  sentiment : Int
  source : String
  url : Option String
  clean_url : String
  image : Option String
  timestamp : Int
deriving DecidableEq

/-- A raw search-result entry as produced by the fetchers (`get_combined_news`
rows).  `published_ts` is the parsed `published date` (`none` = the field is
missing or `dateutil` fails to parse it). -/
structure RawEntry where
  title : String
  url : Option String
  publisher : Option String
  published_ts : Option Int
  description : Option String
  image : Option String
deriving DecidableEq

/-- An AI analysis result that passed the validation
`'title_fa' in data and 'summary' in data` in `analyze_with_ai`; all other
fields may be absent. -/
structure AiData where
  title_fa : String
  summary : PySummary
  impact : Option String
  tag : Option String
  urgency : Option PyUrgency
  sentiment : Option Int
deriving DecidableEq

/-- CONFIG HISTORY_SIZE. -/
def HISTORY_SIZE : Nat := 300

/-- CONFIG MIN_TELEGRAM_URGENCY. -/
def MIN_TELEGRAM_URGENCY : Int := 7

/-- CONFIG AI_RETRIES. -/
def AI_RETRIES : Nat := 3

/-- The telegram character budget used by the chunking loop in
`send_digest_to_telegram`. -/
def TELEGRAM_LIMIT : Nat := 3900

/-- The canonical URL key of a record, `_clean_url(item.get('url'))`:
an absent URL behaves like the empty string (`if not url: return ""`). -/
def cleanKey (r : NewsItem) : String :=
  cleanUrl (r.url.getD "")

/-! ### History merge: `save_news` (src/main.py L492-520) -/

/-- The URL dedup loop of `save_news`: keeps an item only when its cleaned
URL is nonempty and not seen before (`if u and u not in seen_u`). -/
def dedupByUrl (seen : Finset String) : List NewsItem → List NewsItem
  | [] => []
  | r :: rest =>
    let u := cleanKey r
    if u ≠ "" ∧ u ∉ seen then r :: dedupByUrl (insert u seen) rest
    else dedupByUrl seen rest

/-- Stable insertion into a list ordered by `le` (`le x y` = `x` may come
before `y`): the new element goes after every existing element that may
precede it, so elements already in the list keep their relative order. -/
def stableInsert (le : α → α → Bool) (a : α) : List α → List α
  | [] => [a]
  | b :: l => if le b a then b :: stableInsert le a l else a :: b :: l

/-- Stable sort, processing elements left to right. -/
def stableSortAux (le : α → α → Bool) : List α → List α → List α
  | [], acc => acc
  | a :: l, acc => stableSortAux le l (stableInsert le a acc)

/-- Model of Python `list.sort(key=..., reverse=True)`.  Python sorting is
stable, and every stable sort of a list under a total preorder produces the
same list, so a stable insertion sort is an exact executable model. -/
def stableSort (le : α → α → Bool) (l : List α) : List α :=
  stableSortAux le l []

/-- Sort key of `save_news`: `sort(key=lambda x: x.get('timestamp', 0),
reverse=True)` — newest first. -/
def tsDescBool (a b : NewsItem) : Bool :=
  decide (b.timestamp ≤ a.timestamp)

/-- The deduplicated union of new and existing records built by `save_news`
(`unique_news` before the sort). -/
def dedupUnion (newItems existing : List NewsItem) : List NewsItem :=
  dedupByUrl ∅ (newItems ++ existing)

/-- The successful-path result of `save_news`: dedup by cleaned URL over
`new_items + self.existing_news`, sort by timestamp descending, truncate to
`HISTORY_SIZE`. -/
def mergeHistory (newItems existing : List NewsItem) : List NewsItem :=
  (stableSort tsDescBool (dedupUnion newItems existing)).take HISTORY_SIZE

/-- Model of `save_news`: the whole body is wrapped in `try/except`; the only
fallible step after the pure merge is the file write, and on any exception
the function returns `self.existing_news` unchanged.  `writeOk = false` is
the exception path. -/
def save_news (writeOk : Bool) (newItems existing : List NewsItem) : List NewsItem :=
  if writeOk then mergeHistory newItems existing else existing

/-! ### Fuzzy duplicate detection: `_is_duplicate_fuzzy` (src/main.py L95-117) -/

/-- The loop body of `_is_duplicate_fuzzy` for one pool item: skip items
with an empty token set (`if not existing_tokens: continue`, and the
`if not union: continue` guard), otherwise test
`similarity = len(inter)/len(union) > 0.5`, modeled exactly as
`union.card < 2 * inter.card` (the union is nonempty at that point). -/
def fuzzyHit (newTokens : Finset String) (item : NewsItem) : Bool :=
  let existingTokens := getTokens item.title_en
  if existingTokens = ∅ then false
  else
    let inter := newTokens ∩ existingTokens
    let union := newTokens ∪ existingTokens
    if union = ∅ then false
    else decide (union.card < 2 * inter.card)

/-- Model of `_is_duplicate_fuzzy(new_title, comparison_pool)`.  The pool
items are history records; `item.get('title_en', item.get('title', ''))`
reads the `title_en` field. -/
def isDuplicateFuzzy (seenTitles : Finset String) (newTitle : String)
    (pool : List NewsItem) : Bool :=
  if normalizeText newTitle ∈ seenTitles then true
  else
    let newTokens := getTokens newTitle
    if newTokens.card < 3 then false
    else pool.any (fuzzyHit newTokens)

/-! ### The batch filter of `run` (src/main.py L536-567) -/

/-- The in-memory dedup state of `IranNewsRadar`: `seen_urls` and
`seen_titles` (populated from history in `__init__`) and the loaded
`existing_news`. -/
structure RadarState where
  seen_urls : Finset String
  seen_titles : Finset String
  existing_news : List NewsItem
deriving DecidableEq

/-- One pass of the candidate filter loop in `run` (non-manual mode): skip
items older than the cutoff, skip seen URLs, skip seen or batch-seen
normalized titles, skip fuzzy duplicates of history; each accepted
candidate adds its normalized title to the batch set.  A missing or
unparseable `published date` counts as recent (`except: pass`). -/
def batchFilterAux (st : RadarState) (cutoff : Int) :
    List RawEntry → Finset String → List RawEntry
  | [], _ => []
  | e :: rest, seenBatch =>
    if (match e.published_ts with
        | some ts => decide (ts < cutoff)
        | none => false) then
      batchFilterAux st cutoff rest seenBatch
    else
      let clean_u := cleanUrl (e.url.getD "")
      if clean_u ∈ st.seen_urls then batchFilterAux st cutoff rest seenBatch
      else
        let t := rsplitTitle e.title
        let norm_t := normalizeText t
        if norm_t ∈ st.seen_titles then batchFilterAux st cutoff rest seenBatch
        else if norm_t ∈ seenBatch then batchFilterAux st cutoff rest seenBatch
        else if isDuplicateFuzzy st.seen_titles t st.existing_news then
          batchFilterAux st cutoff rest seenBatch
        else e :: batchFilterAux st cutoff rest (insert norm_t seenBatch)

/-- The candidate list built by `run` from the fetched results. -/
def batchFilter (st : RadarState) (cutoff : Int) (results : List RawEntry) :
    List RawEntry :=
  batchFilterAux st cutoff results ∅

/-! ### Enrichment: `analyze_with_ai` and `process_item`
(src/main.py L299-394) -/

/-- Picks the first successful attempt. -/
def firstValid : List (Option AiData) → Option AiData
  | [] => none
  | some d :: _ => some d
  | none :: rest => firstValid rest

/-- Model of `analyze_with_ai`: without an API key it returns `None`
immediately; otherwise the result is the first of (at most) `AI_RETRIES`
attempts that returns HTTP 200 with valid JSON containing the keys
`title_fa` and `summary` (each attempt is an input, `none` = failure). -/
def analyze_with_ai (apiKey : Option String)
    (attempts : List (Option AiData)) : Option AiData :=
  match apiKey with
  | none => none
  | some _ => firstValid (attempts.take AI_RETRIES)

/-- Digit-list value, most significant first. -/
def digitsToNat (l : List Char) : Nat :=
  l.foldl (fun n c => 10 * n + (c.toNat - 48)) 0

/-- Model of `int(s)` on ASCII decimal strings: optional surrounding
whitespace, optional sign, nonempty digit run; everything else raises
(`none`). -/
def pyParseInt (s : String) : Option Int :=
  let l := ((s.data.dropWhile isSpaceB).reverse.dropWhile isSpaceB).reverse
  match l with
  | '+' :: ds =>
    if ds ≠ [] ∧ ds.all isDigitB then some (digitsToNat ds : Int) else none
  | '-' :: ds =>
    if ds ≠ [] ∧ ds.all isDigitB then some (-(digitsToNat ds : Int)) else none
  | ds =>
    if ds ≠ [] ∧ ds.all isDigitB then some (digitsToNat ds : Int) else none

/-- Model of the urgency computation in `process_item`:
`try: urgency_val = int(ai.get('urgency', 3))` / `except: urgency_val = 3`.
A missing key defaults to `int(3) = 3`; an unparseable string or `null`
raises and falls back to 3; an integer is stored unchanged. -/
def parseUrgency : Option PyUrgency → Int
  | none => 3
  | some (.vint n) => n
  | some (.vstr s) => (pyParseInt s).getD 3
  | some .vnull => 3

/-- Model of `_resolve_final_url`: falsy input gives `None`; a URL not on
`news.google.com` is returned as is; a Google News URL is resolved over the
network (`resolved`; `none` = the request raised, returning the input). -/
def resolveFinalUrl (resolved : Option String) (url : Option String) :
    Option String :=
  match url with
  | none => none
  | some u =>
    if u = "" then none
    else if hasRunStr "news.google.com" u then
      match resolved with
      | some r => some r
      | none => some u
    else some u

/-- Model of `process_item` (src/main.py L353-394).  Network effects are
inputs: `resolved` is the redirect target used by `_resolve_final_url`,
`attempts` are the AI responses, `nowTs` is `time.time()` (used when the
entry date is missing or unparseable).  The scraped article text only feeds
the AI call and does not appear in the result. -/
def process_item (manualMode : Bool) (apiKey : Option String)
    (seenUrls seenTitles : Finset String) (existing : List NewsItem)
    (resolved : Option String) (attempts : List (Option AiData))
    (nowTs : Int) (entry : RawEntry) : Option NewsItem :=
  let raw_title := rsplitTitle entry.title
  let publisher := entry.publisher.getD "Unknown"
  let final_url := resolveFinalUrl resolved entry.url
  let clean_final_url := cleanUrl (final_url.getD "")
  if ¬manualMode ∧ (clean_final_url ∈ seenUrls ∨
      isDuplicateFuzzy seenTitles raw_title existing = true) then none
  else
    match analyze_with_ai apiKey attempts with
    | none => none
    | some ai =>
      some {
        title_fa := ai.title_fa
        title_en := raw_title
        summary := ai.summary
        impact := ai.impact.getD "..."
        tag := ai.tag.getD "General"
        urgency := parseUrgency ai.urgency
        sentiment := ai.sentiment.getD 0
        source := publisher
        url := final_url
        clean_url := clean_final_url
        image := entry.image
        timestamp := entry.published_ts.getD nowTs }

/-! ### Digest assembly: `send_digest_to_telegram` (src/main.py L396-490) -/

/-- Model of `html.escape(s)` (quote=True): `&`, `<`, `>`, `"` and the
apostrophe are replaced by entities. -/
def escChar (c : Char) : List Char :=
  if c = '&' then "&amp;".data
  else if c = '<' then "&lt;".data
  else if c = '>' then "&gt;".data
  else if c = '"' then "&quot;".data
  else if c = '\x27' then "&#x27;".data
  else [c]

/-- HTML escape on strings. -/
def htmlEscape (s : String) : String :=
  String.mk (s.data.flatMap escChar)

/-- The state-media markers checked against `source.lower()`. -/
def REGIME_WORDS : List String :=
  ["tasnim", "fars", "irna", "press", "mehr"]

/-- Model of the `is_regime` test in `send_digest_to_telegram`. -/
def isRegime (source : String) : Bool :=
  REGIME_WORDS.any fun w => hasRunStr w (pyLower source)

/-- Normalization of the summary field in the renderer:
`if isinstance(summary_raw, str): summary_raw = [summary_raw]`. -/
def summaryLines : PySummary → List String
  | .sstr s => [s]
  | .slist l => l

/-- Joins strings with a separator (model of `sep.join(...)`). -/
def joinSep (sep : String) : List String → String
  | [] => ""
  | [x] => x
  | x :: y :: rest => x ++ sep ++ joinSep sep (y :: rest)

/-- Replaces spaces by underscores (the `.replace(' ', '_')` on the tag). -/
def spaceToUnderscore (s : String) : String :=
  String.mk (s.data.map fun c => if c = ' ' then '_' else c)

/-- Model of the `item_html` block built for one item in
`send_digest_to_telegram`.  `str(None)` renders as `"None"` for a missing
URL; a missing image is falsy, so no hidden link is emitted. -/
def renderItem (item : NewsItem) : String :=
  let title := item.title_fa
  let source := item.source
  let url := match item.url with | some u => u | none => "None"
  let img_link := item.image.getD ""
  let icon :=
    if 9 ≤ item.urgency then "🔥🔴"
    else if 7 ≤ item.urgency then "🚨"
    else "🔹"
  let safe_source :=
    htmlEscape source ++ (if isRegime source then " (State Media 🚫)" else "")
  let safe_summary :=
    joinSep "\n" ((summaryLines item.summary).map fun s => "▪️ " ++ htmlEscape s)
  let hidden_image :=
    if img_link ≠ "" then "<a href=\x27" ++ img_link ++ "\x27>&#8205;</a>" else ""
  icon ++ " " ++ hidden_image ++ "<b><a href=\x27" ++ url ++ "\x27>" ++
    htmlEscape title ++ "</a></b>\n" ++
    "🗞 <i>منبع: " ++ safe_source ++ "</i>\n\n" ++
    "📝 <b>تحلیل:</b>\n" ++ safe_summary ++ "\n\n" ++
    "🎯 <b>تأثیر:</b> " ++ htmlEscape item.impact ++ "\n\n" ++
    "#" ++ spaceToUnderscore (htmlEscape item.tag) ++ "\n" ++
    "〰️〰️〰️〰️〰️〰️〰️\n\n"

/-- The message header: time of day and market line are runtime inputs. -/
def digestHeader (irTime marketText : String) : String :=
  "🚨 <b>رادار اخبار مهم ایران</b> | ⏱ " ++ irTime ++ "\n" ++ marketText ++
    "\n➖➖➖➖➖➖➖➖➖➖\n\n"

/-- The fixed message footer. -/
def digestFooter : String :=
  "\n🆔 @RasadAIOfficial\n📊 <a href=\x27https://itsyebekhe.github.io/rasadai/\x27>مشاهده اخبار بیشتر در سایت</a>"

/-- Sort key of the digest: `items.sort(key=lambda x: x['urgency'],
reverse=True)`. -/
def urgencyDescBool (a b : NewsItem) : Bool :=
  decide (b.urgency ≤ a.urgency)

/-- The chunking loop of `send_digest_to_telegram`: if appending the next
block and the footer would push the current chunk past `TELEGRAM_LIMIT`,
the current chunk is closed (footer appended) and a new chunk starts with
the header and that block; after the loop a chunk holding more than the
bare header is closed. -/
def packLoop (header footer : String) :
    List String → String → List String → List String
  | [], current, acc =>
    if current ≠ header then acc ++ [current ++ footer] else acc
  | b :: bs, current, acc =>
    if TELEGRAM_LIMIT < current.length + b.length + footer.length then
      packLoop header footer bs (header ++ b) (acc ++ [current ++ footer])
    else packLoop header footer bs (current ++ b) acc

/-- The chunks built (and then sent) by `send_digest_to_telegram`: items
sorted by urgency descending, rendered, and packed greedily. -/
def sendDigestChunks (irTime marketText : String) (items : List NewsItem) :
    List String :=
  let header := digestHeader irTime marketText
  packLoop header digestFooter
    ((stableSort urgencyDescBool items).map renderItem) header []

/-- Concatenation of a list of strings. -/
def strJoin : List String → String
  | [] => ""
  | s :: rest => s ++ strJoin rest

/-- A chunk is well-formed for a block list when it is the header, a
consecutive run of whole blocks, and the footer — i.e. no block is ever
split across chunks. -/
def chunkGood (header footer : String) (blocks : List String) (c : String) :
    Prop :=
  ∃ pre run post, blocks = pre ++ run ++ post ∧ c = header ++ strJoin run ++ footer

/-! ### Dispatch routing: the urgency policy of `run` (src/main.py L589-600) -/

/-- The conflict vocabulary checked against `tag.lower()`. -/
def CONFLICT_WORDS : List String :=
  ["war", "conflict", "military", "strike", "attack", "nuclear"]

/-- Tests whether a tag matches the conflict vocabulary (case-insensitive
substring). -/
def isConflictTag (tag : String) : Bool :=
  CONFLICT_WORDS.any fun w => hasRunStr w (pyLower tag)

/-- The dispatch selection of `run`: keep an item when `urgency >= 7`, or
when `urgency >= 6` and the tag matches the conflict vocabulary. -/
def telegramFilter (items : List NewsItem) : List NewsItem :=
  items.filter fun item =>
    decide (MIN_TELEGRAM_URGENCY ≤ item.urgency) ||
      (decide ((6 : Int) ≤ item.urgency) && isConflictTag item.tag)

/-! ### Concrete instances used to witness and refute claims -/

/-- A new record with timestamp 1. -/
def rNew : NewsItem :=
  { title_fa := "a", title_en := "a", summary := .slist [], impact := "",
    tag := "General", urgency := 5, sentiment := 0, source := "s",
    url := some "http://example.com/a", clean_url := "http://example.com/a",
    image := none, timestamp := 1 }

/-- An existing record with the same canonical URL as `rNew` (a tracking
query parameter apart) and a newer timestamp 5. -/
def rOld : NewsItem :=
  { title_fa := "b", title_en := "b", summary := .slist [], impact := "",
    tag := "General", urgency := 5, sentiment := 0, source := "s",
    url := some "http://example.com/a?x=1", clean_url := "http://example.com/a",
    image := none, timestamp := 5 }

/-- Scenario B, candidate 1. -/
def cand1 : RawEntry :=
  { title := "Iran Nuclear Talks Collapse After Summit",
    url := some "http://a.com/1", publisher := none, published_ts := none,
    description := none, image := none }

/-- Scenario B, candidate 2. -/
def cand2 : RawEntry :=
  { title := "Nuclear Talks With Iran Collapse Following Summit",
    url := some "http://b.com/2", publisher := none, published_ts := none,
    description := none, image := none }

/-- The cold-start state: empty history, empty seen sets. -/
def emptyState : RadarState :=
  { seen_urls := ∅, seen_titles := ∅, existing_news := [] }

/-- A history record carrying the Scenario B candidate-1 title. -/
def histItem : NewsItem :=
  { title_fa := "t", title_en := "Iran Nuclear Talks Collapse After Summit",
    summary := .slist [], impact := "", tag := "General", urgency := 5,
    sentiment := 0, source := "s", url := some "http://a.com/1",
    clean_url := "http://a.com/1", image := none, timestamp := 0 }

/-- An AI response whose urgency is the out-of-range integer 11. -/
def aiEleven : AiData :=
  { title_fa := "t", summary := .slist ["s"], impact := none, tag := none,
    urgency := some (.vint 11), sentiment := none }

/-- A plain raw entry. -/
def entry0 : RawEntry :=
  { title := "Some headline", url := some "http://x.com/a",
    publisher := some "Pub", published_ts := some 100,
    description := some "d", image := none }

/-- An enriched item whose rendered block alone exceeds the character
budget (its impact field is 3900 characters long). -/
def bigItem : NewsItem :=
  { title_fa := "t", title_en := "t", summary := .slist [], impact :=
      String.mk (List.replicate 3900 'x'),
    tag := "General", urgency := 8, sentiment := 0, source := "s",
    url := some "http://x.com/a", clean_url := "http://x.com/a",
    image := none, timestamp := 0 }

/-- A small enriched item whose rendered block fits the budget easily. -/
def smallItem : NewsItem :=
  { title_fa := "t", title_en := "t", summary := .slist ["one line"],
    impact := "small", tag := "General", urgency := 8, sentiment := 0,
    source := "s", url := some "http://x.com/a", clean_url := "http://x.com/a",
    image := none, timestamp := 0 }

/-! ## Lemmas about the stable sort -/

theorem stableInsert_perm (le : α → α → Bool) (a : α) (l : List α) :
    (stableInsert le a l).Perm (a :: l) := by
  induction l with
  | nil => exact List.Perm.refl _
  | cons b l ih =>
    simp only [stableInsert]
    split
    · exact (ih.cons b).trans (List.Perm.swap a b l)
    · exact List.Perm.refl _

theorem stableSortAux_perm (le : α → α → Bool) (l : List α) :
    ∀ acc : List α, (stableSortAux le l acc).Perm (acc ++ l) := by
  induction l with
  | nil => intro acc; simp [stableSortAux]
  | cons a l ih =>
    intro acc
    have h1 : (stableSortAux le l (stableInsert le a acc)).Perm
        (stableInsert le a acc ++ l) := ih _
    have h2 : (stableInsert le a acc ++ l).Perm ((a :: acc) ++ l) :=
      (stableInsert_perm le a acc).append_right l
    have h3 : ((a :: acc) ++ l).Perm (acc ++ a :: l) := by
      simpa using List.perm_middle.symm
    exact (h1.trans h2).trans h3

theorem stableSort_perm (le : α → α → Bool) (l : List α) :
    (stableSort le l).Perm l := by
  simpa using stableSortAux_perm le l []

theorem stableInsert_pairwise (le : α → α → Bool)
    (htot : ∀ x y, le x y = true ∨ le y x = true)
    (htrans : ∀ x y z, le x y = true → le y z = true → le x z = true)
    (a : α) (l : List α) (hl : l.Pairwise fun x y => le x y = true) :
    (stableInsert le a l).Pairwise fun x y => le x y = true := by
  induction l with
  | nil => simp [stableInsert]
  | cons b l ih =>
    rcases List.pairwise_cons.mp hl with ⟨hb, hl'⟩
    simp only [stableInsert]
    split
    case isTrue h =>
      refine List.pairwise_cons.mpr ⟨?_, ih hl'⟩
      intro c hc
      rcases List.mem_cons.mp ((stableInsert_perm le a l).subset hc) with rfl | hcl
      · exact h
      · exact hb c hcl
    case isFalse h =>
      have hab : le a b = true := (htot a b).resolve_right fun hba => h hba
      refine List.pairwise_cons.mpr ⟨?_, hl⟩
      intro c hc
      rcases List.mem_cons.mp hc with rfl | hcl
      · exact hab
      · exact htrans a b c hab (hb c hcl)

theorem stableSortAux_pairwise (le : α → α → Bool)
    (htot : ∀ x y, le x y = true ∨ le y x = true)
    (htrans : ∀ x y z, le x y = true → le y z = true → le x z = true)
    (l : List α) :
    ∀ acc : List α, (acc.Pairwise fun x y => le x y = true) →
      (stableSortAux le l acc).Pairwise fun x y => le x y = true := by
  induction l with
  | nil => intro acc hacc; exact hacc
  | cons a l ih =>
    intro acc hacc
    exact ih _ (stableInsert_pairwise le htot htrans a acc hacc)

theorem stableSort_pairwise (le : α → α → Bool)
    (htot : ∀ x y, le x y = true ∨ le y x = true)
    (htrans : ∀ x y z, le x y = true → le y z = true → le x z = true)
    (l : List α) :
    (stableSort le l).Pairwise fun x y => le x y = true :=
  stableSortAux_pairwise le htot htrans l [] List.Pairwise.nil

theorem tsDescBool_total (a b : NewsItem) :
    tsDescBool a b = true ∨ tsDescBool b a = true := by
  simp only [tsDescBool, decide_eq_true_eq]
  exact le_total _ _

theorem tsDescBool_trans (a b c : NewsItem) :
    tsDescBool a b = true → tsDescBool b c = true → tsDescBool a c = true := by
  simp only [tsDescBool, decide_eq_true_eq]
  omega

/-! ## Lemmas about the URL dedup of `save_news` -/

theorem mem_dedupByUrl : ∀ (l : List NewsItem) (seen : Finset String)
    (r : NewsItem), r ∈ dedupByUrl seen l →
    r ∈ l ∧ cleanKey r ≠ "" ∧ cleanKey r ∉ seen := by
  intro l
  induction l with
  | nil => intro seen r h; simp [dedupByUrl] at h
  | cons x xs ih =>
    intro seen r h
    simp only [dedupByUrl] at h
    by_cases hc : cleanKey x ≠ "" ∧ cleanKey x ∉ seen
    · rw [if_pos hc] at h
      rcases List.mem_cons.mp h with rfl | hm
      · exact ⟨List.mem_cons_self _ _, hc.1, hc.2⟩
      · obtain ⟨h1, h2, h3⟩ := ih _ _ hm
        exact ⟨List.mem_cons_of_mem _ h1, h2,
          fun hs => h3 (Finset.mem_insert_of_mem hs)⟩
    · rw [if_neg hc] at h
      obtain ⟨h1, h2, h3⟩ := ih _ _ h
      exact ⟨List.mem_cons_of_mem _ h1, h2, h3⟩

theorem dedupByUrl_map_key_nodup : ∀ (l : List NewsItem) (seen : Finset String),
    ((dedupByUrl seen l).map cleanKey).Nodup := by
  intro l
  induction l with
  | nil => intro seen; simp [dedupByUrl]
  | cons x xs ih =>
    intro seen
    simp only [dedupByUrl]
    by_cases hc : cleanKey x ≠ "" ∧ cleanKey x ∉ seen
    · rw [if_pos hc]
      simp only [List.map_cons, List.nodup_cons]
      refine ⟨?_, ih _⟩
      intro hmem
      rcases List.mem_map.mp hmem with ⟨r, hr, hkey⟩
      have h3 := (mem_dedupByUrl _ _ _ hr).2.2
      exact h3 (hkey ▸ Finset.mem_insert_self _ _)
    · rw [if_neg hc]
      exact ih _

theorem dedupByUrl_first_newest : ∀ (l : List NewsItem),
    (l.Pairwise fun a b => cleanKey a = cleanKey b → b.timestamp ≤ a.timestamp) →
    ∀ (seen : Finset String) (r s : NewsItem), r ∈ dedupByUrl seen l → s ∈ l →
      cleanKey s = cleanKey r → s.timestamp ≤ r.timestamp := by
  intro l
  induction l with
  | nil => intro _ seen r s _ hs; simp at hs
  | cons x xs ih =>
    intro hp seen r s hr hs hkey
    rcases List.pairwise_cons.mp hp with ⟨hx, hp'⟩
    simp only [dedupByUrl] at hr
    by_cases hc : cleanKey x ≠ "" ∧ cleanKey x ∉ seen
    · rw [if_pos hc] at hr
      rcases List.mem_cons.mp hr with rfl | hrm
      · rcases List.mem_cons.mp hs with rfl | hsm
        · exact le_refl _
        · exact hx s hsm hkey.symm
      · rcases List.mem_cons.mp hs with rfl | hsm
        · have h3 := (mem_dedupByUrl _ _ _ hrm).2.2
          exact absurd (hkey ▸ Finset.mem_insert_self (cleanKey s) seen) h3
        · exact ih hp' _ r s hrm hsm hkey
    · rw [if_neg hc] at hr
      rcases List.mem_cons.mp hs with rfl | hsm
      · obtain ⟨_, h2, h3⟩ := mem_dedupByUrl _ _ _ hr
        rcases not_and_or.mp hc with h | h
        · rw [not_not] at h
          exact absurd (hkey ▸ h) h2
        · rw [not_not] at h
          exact absurd (hkey ▸ h) h3
      · exact ih hp' _ r s hr hsm hkey

theorem mem_mergeHistory {newItems existing : List NewsItem} {r : NewsItem}
    (h : r ∈ mergeHistory newItems existing) :
    r ∈ dedupUnion newItems existing :=
  (stableSort_perm _ _).subset ((List.take_sublist _ _).subset h)

/-! ## Claim theorems: the History Store -/

/-- C2: for any lists of new and existing records, `save_news` returns
exactly `min(H, |deduplicated union|)` records with `H = 300`, sorted
newest-by-timestamp first; in particular the result length never exceeds
`H`. -/
theorem C2_history_merge_size_sorted (newItems existing : List NewsItem) :
    (mergeHistory newItems existing).length =
      min HISTORY_SIZE (dedupUnion newItems existing).length ∧
    (mergeHistory newItems existing).length ≤ HISTORY_SIZE ∧
    (mergeHistory newItems existing).Pairwise
      fun a b => b.timestamp ≤ a.timestamp := by
  have hlen : (stableSort tsDescBool (dedupUnion newItems existing)).length
      = (dedupUnion newItems existing).length := (stableSort_perm _ _).length_eq
  refine ⟨?_, ?_, ?_⟩
  · rw [mergeHistory, List.length_take, hlen]
  · rw [mergeHistory, List.length_take, hlen]
    exact min_le_left _ _
  · have hs := stableSort_pairwise tsDescBool tsDescBool_total tsDescBool_trans
      (dedupUnion newItems existing)
    exact (List.Pairwise.sublist (List.take_sublist _ _) hs).imp
      fun h => by simpa [tsDescBool] using h

/-- C3 (counterexample): the record retained for a canonical URL is the
first occurrence in `new_items + existing`, not the newest by timestamp:
here the older record `rNew` (timestamp 1) is retained and the newer
record `rOld` (timestamp 5) with the same canonical URL is discarded. -/
theorem C3_counterexample :
    mergeHistory [rNew] [rOld] = [rNew] ∧ cleanKey rOld = cleanKey rNew ∧
      rNew.timestamp < rOld.timestamp := by decide

/-- C3 (amended): the merge never returns two records with the same
canonical URL; and the retained record for each canonical URL is the first
occurrence in the concatenation `new_items + existing` — hence the newest
by timestamp whenever records sharing a canonical URL occur
newest-first in that concatenation. -/
theorem C3_merge_unique_urls (newItems existing : List NewsItem)
    (horder : (newItems ++ existing).Pairwise
      fun a b => cleanKey a = cleanKey b → b.timestamp ≤ a.timestamp) :
    ((mergeHistory newItems existing).map cleanKey).Nodup ∧
    ∀ r ∈ mergeHistory newItems existing, ∀ s ∈ newItems ++ existing,
      cleanKey s = cleanKey r → s.timestamp ≤ r.timestamp := by
  constructor
  · have h1 : ((dedupUnion newItems existing).map cleanKey).Nodup :=
      dedupByUrl_map_key_nodup _ _
    have h2 : ((stableSort tsDescBool (dedupUnion newItems existing)).map
        cleanKey).Nodup := ((stableSort_perm _ _).map cleanKey).nodup_iff.mpr h1
    rw [mergeHistory, List.map_take]
    exact (List.take_sublist _ _).nodup h2
  · intro r hr s hs hkey
    exact dedupByUrl_first_newest _ horder _ r s (mem_mergeHistory hr) hs hkey

/-- C3 (witness): the amended statement at a concrete input in which the
newer record comes first. -/
theorem C3_witness :
    ((mergeHistory [rOld] [rNew]).map cleanKey).Nodup ∧
    ∀ r ∈ mergeHistory [rOld] [rNew], ∀ s ∈ [rOld] ++ [rNew],
      cleanKey s = cleanKey r → s.timestamp ≤ r.timestamp :=
  C3_merge_unique_urls [rOld] [rNew] (by decide)

/-- C9: the merge silently discards every record whose cleaned URL is empty
or absent — no record of the resulting history has an empty canonical URL
or a missing URL field, regardless of how much capacity is left. -/
theorem C9_no_empty_url_persisted (newItems existing : List NewsItem) :
    ∀ r ∈ mergeHistory newItems existing, cleanKey r ≠ "" ∧ r.url ≠ none := by
  intro r hr
  have h := (mem_dedupByUrl _ _ _ (mem_mergeHistory hr)).2.1
  refine ⟨h, ?_⟩
  intro hu
  apply h
  rw [cleanKey, hu]
  rfl

/-- C9 (witness): the statement applied to a concrete merge. -/
theorem C9_witness : cleanKey rNew ≠ "" ∧ rNew.url ≠ none :=
  C9_no_empty_url_persisted [rNew] [] rNew (by decide)

/-- C10: when the save step fails, `save_news` returns the previously
loaded history unchanged, so the in-memory state of the run is unaffected
by a failed save. -/
theorem C10_failed_save_keeps_history (newItems existing : List NewsItem) :
    save_news false newItems existing = existing := rfl

/-! ## Claim theorems: dispatch selection -/

/-- C5: an enriched item is selected for dispatch iff its urgency is at
least 7, or its urgency is at least 6 and its tag contains a
conflict-vocabulary word (case-insensitive substring). -/
theorem C5_dispatch_selection (items : List NewsItem) (item : NewsItem) :
    item ∈ telegramFilter items ↔
      item ∈ items ∧ (MIN_TELEGRAM_URGENCY ≤ item.urgency ∨
        ((6 : Int) ≤ item.urgency ∧ isConflictTag item.tag = true)) := by
  simp [telegramFilter, List.mem_filter, Bool.or_eq_true, Bool.and_eq_true,
    decide_eq_true_eq]

/-! ## Claim theorems: fuzzy deduplication -/

theorem fuzzyHit_iff (tk : Finset String) (htk : tk ≠ ∅) (item : NewsItem) :
    fuzzyHit tk item = true ↔
      (tk ∪ getTokens item.title_en).card <
        2 * (tk ∩ getTokens item.title_en).card := by
  simp only [fuzzyHit]
  by_cases h1 : getTokens item.title_en = ∅
  · rw [if_pos h1, h1]
    simp
  · rw [if_neg h1]
    have h2 : tk ∪ getTokens item.title_en ≠ ∅ := by
      intro h
      exact htk (Finset.union_eq_empty.mp h).1
    rw [if_neg h2]
    simp

/-- C4 (counterexample): in Scenario B with empty history, candidate 2 is
*not* flagged as a duplicate of the just-accepted candidate 1 — both
candidates survive the batch filter — even though their token
intersection has size at least 4: the code has no intersection-count rule
and never fuzzy-compares against same-batch candidates. -/
theorem C4_counterexample :
    batchFilter emptyState 0 [cand1, cand2] = [cand1, cand2] ∧
    4 ≤ ((getTokens cand1.title) ∩ (getTokens cand2.title)).card := by decide

/-- C4 (amended): a candidate whose normalized title is unseen and whose
token set has at least 3 tokens is flagged a fuzzy duplicate iff its
Jaccard similarity with some *history* item exceeds 0.5
(`|union| < 2·|intersection|`); intersection size alone never flags a
candidate, and same-batch candidates are not part of the fuzzy pool. -/
theorem C4_fuzzy_similarity_only (seenTitles : Finset String) (title : String)
    (pool : List NewsItem) (hnorm : normalizeText title ∉ seenTitles)
    (hcard : 3 ≤ (getTokens title).card) :
    isDuplicateFuzzy seenTitles title pool = true ↔
      ∃ item ∈ pool,
        ((getTokens title) ∪ (getTokens item.title_en)).card <
          2 * ((getTokens title) ∩ (getTokens item.title_en)).card := by
  have htk : getTokens title ≠ ∅ := by
    intro h
    rw [h] at hcard
    simp at hcard
  simp only [isDuplicateFuzzy]
  rw [if_neg hnorm, if_neg (by omega : ¬(getTokens title).card < 3)]
  rw [List.any_eq_true]
  constructor
  · rintro ⟨item, hmem, hb⟩
    exact ⟨item, hmem, (fuzzyHit_iff _ htk item).mp hb⟩
  · rintro ⟨item, hmem, hlt⟩
    exact ⟨item, hmem, (fuzzyHit_iff _ htk item).mpr hlt⟩

/-- C4 (witness): the amended characterization applied to the Scenario B
titles, candidate 1 sitting in the history pool. -/
theorem C4_witness :
    isDuplicateFuzzy ∅ cand2.title [histItem] = true ↔
      ∃ item ∈ [histItem],
        ((getTokens cand2.title) ∪ (getTokens item.title_en)).card <
          2 * ((getTokens cand2.title) ∩ (getTokens item.title_en)).card :=
  C4_fuzzy_similarity_only ∅ cand2.title [histItem] (by decide) (by decide)

/-! ## Claim theorems: enrichment -/

/-- C6 (counterexample): an AI urgency of 11 is stored as 11, outside
[1,10]: `process_item` parses the value with `int(...)` but never clamps
it. -/
theorem C6_counterexample :
    ((process_item true (some "key") ∅ ∅ [] none [some aiEleven] 0
      entry0).map NewsItem.urgency) = some 11 ∧ ¬((11 : Int) ≤ 10) := by decide

/-- C6 (amended): every item produced by `process_item` stores
`int(ai['urgency'])` when that call succeeds and 3 otherwise (missing key,
unparseable string, or `null`); an unparseable urgency never causes the
item to be rejected, but out-of-range integers are stored unclamped. -/
theorem C6_urgency_default_not_clamped (manualMode : Bool)
    (apiKey : Option String) (seenUrls seenTitles : Finset String)
    (existing : List NewsItem) (resolved : Option String)
    (attempts : List (Option AiData)) (nowTs : Int) (entry : RawEntry)
    (ai : AiData) (hai : analyze_with_ai apiKey attempts = some ai)
    (hkeep : manualMode = true ∨
      (cleanUrl ((resolveFinalUrl resolved entry.url).getD "") ∉ seenUrls ∧
       isDuplicateFuzzy seenTitles (rsplitTitle entry.title) existing = false)) :
    (∃ rec, process_item manualMode apiKey seenUrls seenTitles existing resolved
        attempts nowTs entry = some rec ∧
        rec.urgency = parseUrgency ai.urgency) ∧
    parseUrgency none = 3 ∧ parseUrgency (some .vnull) = 3 ∧
    (∀ s, pyParseInt s = none → parseUrgency (some (.vstr s)) = 3) := by
  refine ⟨?_, rfl, rfl, ?_⟩
  · have hcond : ¬(¬manualMode = true ∧
        (cleanUrl ((resolveFinalUrl resolved entry.url).getD "") ∈ seenUrls ∨
         isDuplicateFuzzy seenTitles (rsplitTitle entry.title) existing
           = true)) := by
      rcases hkeep with h | ⟨h1, h2⟩
      · rintro ⟨hm, _⟩
        exact hm h
      · rintro ⟨_, hor⟩
        rcases hor with hm | he
        · exact h1 hm
        · rw [h2] at he
          exact Bool.false_ne_true he
    simp only [process_item]
    rw [if_neg hcond, hai]
    exact ⟨_, rfl, rfl⟩
  · intro s hs
    simp [parseUrgency, hs]

/-- C6 (witness): the amended statement at a concrete input whose AI
urgency is the integer 11. -/
theorem C6_witness :
    (∃ rec, process_item true (some "key") ∅ ∅ [] none [some aiEleven] 0 entry0
        = some rec ∧ rec.urgency = parseUrgency aiEleven.urgency) ∧
    parseUrgency none = 3 ∧ parseUrgency (some .vnull) = 3 ∧
    (∀ s, pyParseInt s = none → parseUrgency (some (.vstr s)) = 3) :=
  C6_urgency_default_not_clamped true (some "key") ∅ ∅ [] none [some aiEleven]
    0 entry0 aiEleven rfl (Or.inl rfl)

/-- C7 (counterexample): with the enrichment API key absent, a candidate is
dropped outright (`process_item` returns `None`) even when a usable AI
response would be available — no fallback-only item is built from the
candidate fields, so nothing new is persisted. -/
theorem C7_counterexample :
    process_item false none ∅ ∅ [] none [some aiEleven] 0 entry0 = none := by
  decide

/-- C7 (amended): a missing API key short-circuits `analyze_with_ai` to
`None` and therefore makes `process_item` drop every candidate; the run
itself does not fail, but it produces no fallback items. -/
theorem C7_missing_key_drops_all (manualMode : Bool)
    (seenUrls seenTitles : Finset String) (existing : List NewsItem)
    (resolved : Option String) (attempts : List (Option AiData)) (nowTs : Int)
    (entry : RawEntry) :
    analyze_with_ai none attempts = none ∧
    process_item manualMode none seenUrls seenTitles existing resolved attempts
      nowTs entry = none := by
  refine ⟨rfl, ?_⟩
  simp only [process_item, analyze_with_ai]
  split
  · rfl
  · rfl

/-! ## Lemmas about the digest chunking loop -/

theorem strJoin_append (a b : List String) :
    strJoin (a ++ b) = strJoin a ++ strJoin b := by
  induction a with
  | nil => simp [strJoin]
  | cons x xs ih => simp [strJoin, ih, String.append_assoc]

theorem packLoop_length_le (header footer : String) :
    ∀ bs : List String,
      (∀ b ∈ bs, header.length + b.length + footer.length ≤ TELEGRAM_LIMIT) →
      ∀ (current : String) (acc : List String),
        (current = header ∨ current.length + footer.length ≤ TELEGRAM_LIMIT) →
        (∀ c ∈ acc, c.length ≤ TELEGRAM_LIMIT) →
        ∀ c ∈ packLoop header footer bs current acc,
          c.length ≤ TELEGRAM_LIMIT := by
  intro bs
  induction bs with
  | nil =>
    intro _ current acc hcur hacc c hc
    simp only [packLoop] at hc
    split at hc
    case isTrue hne =>
      rcases List.mem_append.mp hc with h | h
      · exact hacc c h
      · rcases List.mem_singleton.mp h with rfl
        rcases hcur with rfl | hb
        · exact absurd rfl hne
        · rw [String.length_append]
          omega
    case isFalse => exact hacc c hc
  | cons b bs ih =>
    intro hfit current acc hcur hacc c hc
    have hfb := hfit b (List.mem_cons_self _ _)
    have hfit' : ∀ x ∈ bs,
        header.length + x.length + footer.length ≤ TELEGRAM_LIMIT :=
      fun x hx => hfit x (List.mem_cons_of_mem _ hx)
    simp only [packLoop] at hc
    split at hc
    case isTrue hover =>
      refine ih hfit' _ _ ?_ ?_ c hc
      · right
        rw [String.length_append]
        omega
      · intro d hd
        rcases List.mem_append.mp hd with h | h
        · exact hacc d h
        · rcases List.mem_singleton.mp h with rfl
          rcases hcur with rfl | hbnd
          · rw [String.length_append]
            omega
          · rw [String.length_append]
            omega
    case isFalse hover =>
      refine ih hfit' _ _ ?_ hacc c hc
      right
      rw [String.length_append]
      omega

theorem packLoop_chunkGood (header footer : String) (blocks : List String) :
    ∀ (bs curRun pre acc : List String) (current : String),
      current = header ++ strJoin curRun →
      blocks = pre ++ curRun ++ bs →
      (∀ c ∈ acc, chunkGood header footer blocks c) →
      ∀ c ∈ packLoop header footer bs current acc,
        chunkGood header footer blocks c := by
  intro bs
  induction bs with
  | nil =>
    intro curRun pre acc current hcur hb hacc c hc
    subst hcur
    simp only [packLoop] at hc
    split at hc
    case isTrue =>
      rcases List.mem_append.mp hc with h | h
      · exact hacc c h
      · rcases List.mem_singleton.mp h with rfl
        exact ⟨pre, curRun, [], hb, rfl⟩
    case isFalse => exact hacc c hc
  | cons b bs ih =>
    intro curRun pre acc current hcur hb hacc c hc
    subst hcur
    simp only [packLoop] at hc
    split at hc
    case isTrue =>
      have hb' : blocks = (pre ++ curRun) ++ [b] ++ bs := by
        rw [hb]
        simp [List.append_assoc]
      have hacc' : ∀ d ∈ acc ++ [header ++ strJoin curRun ++ footer],
          chunkGood header footer blocks d := by
        intro d hd
        rcases List.mem_append.mp hd with h | h
        · exact hacc d h
        · rcases List.mem_singleton.mp h with rfl
          exact ⟨pre, curRun, b :: bs, hb, rfl⟩
      refine ih [b] (pre ++ curRun) _ _ ?_ hb' hacc' c hc
      simp [strJoin, String.append_empty]
    case isFalse =>
      have hb' : blocks = pre ++ (curRun ++ [b]) ++ bs := by
        rw [hb]
        simp [List.append_assoc]
      refine ih (curRun ++ [b]) pre acc _ ?_ hb' hacc c hc
      rw [strJoin_append]
      simp [strJoin, String.append_empty, String.append_assoc]

/-! ## Claim theorems: digest packing -/

theorem escChar_x : escChar 'x' = ['x'] := by decide

theorem flatMap_escChar_replicate (n : Nat) :
    (List.replicate n 'x').flatMap escChar = List.replicate n 'x' := by
  induction n with
  | zero => rfl
  | succ n ih => simp [List.replicate_succ, ih, escChar_x]

theorem renderItem_length_ge_impact (item : NewsItem) :
    (htmlEscape item.impact).length ≤ (renderItem item).length := by
  simp only [renderItem, String.length_append]
  omega

/-- C1 (counterexample): an item whose rendered block alone exceeds the
budget produces a chunk longer than 3900 characters — the final chunk
`header + block + footer` is pushed without any re-check. -/
theorem C1_counterexample :
    ∃ c ∈ sendDigestChunks "12:00" "" [bigItem],
      TELEGRAM_LIMIT < c.length := by
  have h1 : (htmlEscape bigItem.impact).length = 3900 := by
    show (String.mk ((List.replicate 3900 'x').flatMap escChar)).length = 3900
    rw [flatMap_escChar_replicate, String.length_mk, List.length_replicate]
  have h2 : 3900 ≤ (renderItem bigItem).length :=
    h1 ▸ renderItem_length_ge_impact bigItem
  have h3 : 1 ≤ (digestHeader "12:00" "").length := by decide
  have ht : TELEGRAM_LIMIT = 3900 := rfl
  have hcond : TELEGRAM_LIMIT < (digestHeader "12:00" "").length +
      (renderItem bigItem).length + digestFooter.length := by omega
  have hne : digestHeader "12:00" "" ++ renderItem bigItem ≠
      digestHeader "12:00" "" := by
    intro he
    have hlen := congrArg String.length he
    rw [String.length_append] at hlen
    omega
  have hsort : (stableSort urgencyDescBool [bigItem]).map renderItem =
      [renderItem bigItem] := rfl
  refine ⟨(digestHeader "12:00" "" ++ renderItem bigItem) ++ digestFooter,
    ?_, ?_⟩
  · simp only [sendDigestChunks]
    rw [hsort]
    simp only [packLoop]
    rw [if_pos hcond, if_pos hne]
    simp
  · rw [String.length_append, String.length_append]
    omega

/-- C1 (amended): provided every item block fits the budget together with
the header and footer, every produced chunk is at most 3900 characters
long; and unconditionally a chunk is always the header, a consecutive run
of whole item blocks, and the footer — no block is split across chunks. -/
theorem C1_digest_packing (irTime marketText : String) (items : List NewsItem)
    (hfit : ∀ it ∈ items,
      (digestHeader irTime marketText).length + (renderItem it).length +
        digestFooter.length ≤ TELEGRAM_LIMIT) :
    ∀ c ∈ sendDigestChunks irTime marketText items,
      c.length ≤ TELEGRAM_LIMIT ∧
      chunkGood (digestHeader irTime marketText) digestFooter
        ((stableSort urgencyDescBool items).map renderItem) c := by
  intro c hc
  have hfit' : ∀ b ∈ (stableSort urgencyDescBool items).map renderItem,
      (digestHeader irTime marketText).length + b.length +
        digestFooter.length ≤ TELEGRAM_LIMIT := by
    intro b hb
    rcases List.mem_map.mp hb with ⟨it, hit, rfl⟩
    exact hfit it ((stableSort_perm _ _).subset hit)
  simp only [sendDigestChunks] at hc
  constructor
  · exact packLoop_length_le _ _ _ hfit' _ _ (Or.inl rfl) (by simp) c hc
  · refine packLoop_chunkGood _ _ _ _ [] [] [] _ ?_ (by simp) (by simp) c hc
    simp [strJoin, String.append_empty]

/-! ## Lemmas about URL canonicalization -/

theorem splitOnceChar_eq_some (sep : Char) :
    ∀ (l a b : List Char), splitOnceChar sep l = some (a, b) →
      l = a ++ sep :: b ∧ sep ∉ a := by
  intro l
  induction l with
  | nil => intro a b h; simp [splitOnceChar] at h
  | cons c t ih =>
    intro a b h
    simp only [splitOnceChar] at h
    by_cases hc : c = sep
    · rw [if_pos hc] at h
      simp only [Option.some.injEq, Prod.mk.injEq] at h
      obtain ⟨rfl, rfl⟩ := h
      subst hc
      simp
    · rw [if_neg hc] at h
      cases hsp : splitOnceChar sep t with
      | none => rw [hsp] at h; simp at h
      | some q =>
        obtain ⟨a', b'⟩ := q
        rw [hsp] at h
        simp only [Option.map_some', Option.some.injEq, Prod.mk.injEq] at h
        obtain ⟨rfl, rfl⟩ := h
        obtain ⟨hl, hm⟩ := ih _ _ hsp
        constructor
        · rw [hl]
          rfl
        · intro hmem
          rcases List.mem_cons.mp hmem with he | he
          · exact hc he.symm
          · exact hm he

theorem splitOnceChar_eq_none (sep : Char) :
    ∀ l : List Char, splitOnceChar sep l = none → sep ∉ l := by
  intro l
  induction l with
  | nil => intro _ h; simp at h
  | cons c t ih =>
    intro h
    simp only [splitOnceChar] at h
    by_cases hc : c = sep
    · rw [if_pos hc] at h; simp at h
    · rw [if_neg hc] at h
      cases hsp : splitOnceChar sep t with
      | none =>
        intro hmem
        rcases List.mem_cons.mp hmem with he | he
        · exact hc he.symm
        · exact ih hsp he
      | some q => rw [hsp] at h; simp at h

theorem splitOnceChar_of_not_mem (sep : Char) :
    ∀ l : List Char, sep ∉ l → splitOnceChar sep l = none := by
  intro l
  induction l with
  | nil => intro _; rfl
  | cons c t ih =>
    intro h
    have hc : ¬c = sep := fun he => h (he ▸ List.mem_cons_self _ _)
    have ht : sep ∉ t := fun hm => h (List.mem_cons_of_mem _ hm)
    simp only [splitOnceChar, if_neg hc, ih ht, Option.map_none']

theorem splitOnceChar_append (sep : Char) :
    ∀ (a b : List Char), sep ∉ a →
      splitOnceChar sep (a ++ sep :: b) = some (a, b) := by
  intro a
  induction a with
  | nil => intro b _; simp [splitOnceChar]
  | cons c t ih =>
    intro b h
    have hc : ¬c = sep := fun he => h (he ▸ List.mem_cons_self _ _)
    have ht : sep ∉ t := fun hm => h (List.mem_cons_of_mem _ hm)
    simp only [List.cons_append, splitOnceChar, if_neg hc, List.append_eq,
      ih b ht, Option.map_some']

theorem dropWhileChar_idem (p : Char → Bool) :
    ∀ l : List Char, (l.dropWhile p).dropWhile p = l.dropWhile p := by
  intro l
  induction l with
  | nil => rfl
  | cons c t ih =>
    by_cases hc : p c = true
    · simp only [List.dropWhile_cons, hc]
      exact ih
    · simp only [List.dropWhile_cons, hc]
      simp only [Bool.not_eq_true] at hc
      simp [List.dropWhile_cons, hc]

theorem dropWhileChar_head_false (p : Char → Bool) :
    ∀ (l : List Char) (c : Char) (cs : List Char),
      l.dropWhile p = c :: cs → p c = false := by
  intro l
  induction l with
  | nil => intro c cs h; simp at h
  | cons d t ih =>
    intro c cs h
    by_cases hd : p d = true
    · rw [List.dropWhile_cons_of_pos hd] at h
      exact ih c cs h
    · rw [List.dropWhile_cons_of_neg hd] at h
      injection h with h1 _
      subst h1
      simpa using hd

theorem rstripSlash_idem (l : List Char) :
    rstripSlash (rstripSlash l) = rstripSlash l := by
  simp only [rstripSlash, List.reverse_reverse]
  rw [dropWhileChar_idem]

theorem rstripSlash_append (a b : List Char) :
    rstripSlash (a ++ b) =
      if rstripSlash b = [] then rstripSlash a else a ++ rstripSlash b := by
  simp only [rstripSlash, List.reverse_append, List.dropWhile_append]
  by_cases hb : (b.reverse.dropWhile fun c => c = '/') = []
  · simp [hb, List.isEmpty_iff]
  · simp [hb, List.isEmpty_iff]

theorem rstripSlash_no_slash (l : List Char) (h : ∀ c ∈ l, c ≠ '/') :
    rstripSlash l = l := by
  simp only [rstripSlash]
  cases hr : l.reverse with
  | nil =>
    have : l = [] := by simpa using congrArg List.reverse hr
    simp [this]
  | cons c t =>
    have hc : c ∈ l := by
      have : c ∈ l.reverse := hr ▸ List.mem_cons_self _ _
      simpa using this
    rw [List.dropWhile_cons_of_neg (by simpa using h c hc)]
    rw [← hr, List.reverse_reverse]

theorem rstripSlash_single (c : Char) (h : c ≠ '/') :
    rstripSlash [c] = [c] :=
  rstripSlash_no_slash [c] (by simpa using h)

theorem rstripSlash_prefix (l : List Char) :
    ∃ t, l = rstripSlash l ++ t := by
  refine ⟨(l.reverse.takeWhile fun c => c = '/').reverse, ?_⟩
  simp only [rstripSlash]
  have := List.takeWhile_append_dropWhile (fun c => c = '/') l.reverse
  calc l = l.reverse.reverse := by rw [List.reverse_reverse]
    _ = ((l.reverse.takeWhile fun c => c = '/') ++
          (l.reverse.dropWhile fun c => c = '/')).reverse := by rw [this]
    _ = _ := by rw [List.reverse_append]

theorem data_mk (l : List Char) : (String.mk l).data = l := rfl

theorem charOfNat_shift (n : Nat) (h1 : 65 ≤ n) (h2 : n ≤ 90) :
    (Char.ofNat (n + 32)).toNat = n + 32 := by
  interval_cases n <;> decide

theorem pyCharLower_toNat (c : Char) :
    (65 ≤ c.toNat ∧ c.toNat ≤ 90 ∧ (pyCharLower c).toNat = c.toNat + 32) ∨
    (¬(65 ≤ c.toNat ∧ c.toNat ≤ 90) ∧ pyCharLower c = c) := by
  by_cases h : 65 ≤ c.toNat ∧ c.toNat ≤ 90
  · left
    refine ⟨h.1, h.2, ?_⟩
    simp only [pyCharLower, if_pos h]
    exact charOfNat_shift c.toNat h.1 h.2
  · right
    exact ⟨h, by simp [pyCharLower, if_neg h]⟩

theorem pyCharLower_idem (c : Char) :
    pyCharLower (pyCharLower c) = pyCharLower c := by
  rcases pyCharLower_toNat c with ⟨h1, h2, h3⟩ | ⟨_, he⟩
  · have hno : ¬(65 ≤ (pyCharLower c).toNat ∧ (pyCharLower c).toNat ≤ 90) := by
      omega
    calc pyCharLower (pyCharLower c)
        = if 65 ≤ (pyCharLower c).toNat ∧ (pyCharLower c).toNat ≤ 90 then
            Char.ofNat ((pyCharLower c).toNat + 32) else pyCharLower c := rfl
      _ = pyCharLower c := if_neg hno
  · rw [he, he]

theorem isWordCharB_pyCharLower (c : Char) (h : isWordCharB c = true) :
    isWordCharB (pyCharLower c) = true := by
  simp only [isWordCharB, decide_eq_true_eq] at h ⊢
  rcases pyCharLower_toNat c with ⟨h1, h2, h3⟩ | ⟨_, he⟩
  · rw [h3]
    exact Or.inl (by omega)
  · rw [he]
    exact h

theorem isAsciiAlpha_pyCharLower (c : Char) (h : isAsciiAlpha c = true) :
    isAsciiAlpha (pyCharLower c) = true := by
  simp only [isAsciiAlpha, decide_eq_true_eq] at h ⊢
  rcases pyCharLower_toNat c with ⟨h1, h2, h3⟩ | ⟨_, he⟩
  · rw [h3]
    exact Or.inl (by omega)
  · rw [he]
    exact h

theorem isSchemeChar_pyCharLower (c : Char) (h : isSchemeChar c = true) :
    isSchemeChar (pyCharLower c) = true := by
  simp only [isSchemeChar, decide_eq_true_eq] at h ⊢
  rcases pyCharLower_toNat c with ⟨h1, h2, h3⟩ | ⟨_, he⟩
  · rw [h3]
    exact Or.inl (by omega)
  · rw [he]
    exact h

theorem map_pyCharLower_idem (l : List Char) :
    (l.map pyCharLower).map pyCharLower = l.map pyCharLower := by
  induction l with
  | nil => rfl
  | cons c t ih => simp [pyCharLower_idem, ih]

theorem normalizeText_idem (t : String) :
    normalizeText (normalizeText t) = normalizeText t := by
  simp only [normalizeText, data_mk]
  congr 1
  have hall : ∀ c ∈ (t.data.filter fun c => isWordCharB c).map pyCharLower,
      isWordCharB c = true := by
    intro c hc
    rcases List.mem_map.mp hc with ⟨d, hd, rfl⟩
    exact isWordCharB_pyCharLower d (List.mem_filter.mp hd).2
  rw [List.filter_eq_self.mpr hall]
  exact map_pyCharLower_idem _

theorem isSchemeChar_facts (c : Char) (h : isSchemeChar c = true) :
    32 < c.toNat ∧ c ≠ ':' ∧ c ≠ '\t' ∧ c ≠ '\r' ∧ c ≠ '\n' := by
  simp only [isSchemeChar, decide_eq_true_eq] at h
  refine ⟨?_, ?_, ?_, ?_, ?_⟩
  · rcases h with h|h|h|h|h|h
    · omega
    · omega
    · omega
    · subst h; decide
    · subst h; decide
    · subst h; decide
  · intro he; subst he; exact absurd h (by decide)
  · intro he; subst he; exact absurd h (by decide)
  · intro he; subst he; exact absurd h (by decide)
  · intro he; subst he; exact absurd h (by decide)

theorem isAsciiAlpha_schemeChar (c : Char) (h : isAsciiAlpha c = true) :
    isSchemeChar c = true := by
  simp only [isAsciiAlpha, decide_eq_true_eq] at h
  simp only [isSchemeChar, decide_eq_true_eq]
  rcases h with h | h
  · exact Or.inl h
  · exact Or.inr (Or.inl h)

theorem validLowerScheme_chars (s : List Char) (h : ValidLowerScheme s) :
    s ≠ [] ∧ ∀ c ∈ s, isSchemeChar c = true := by
  obtain ⟨c, cs, rfl, h1, h2, _⟩ := h
  refine ⟨by simp, ?_⟩
  intro d hd
  rcases List.mem_cons.mp hd with rfl | hd
  · exact isAsciiAlpha_schemeChar d h1
  · exact (List.all_eq_true.mp h2) d hd

theorem validLowerScheme_no_colon (s : List Char) (h : ValidLowerScheme s) :
    ':' ∉ s := by
  intro hm
  exact ((isSchemeChar_facts ':' ((validLowerScheme_chars s h).2 ':' hm)).2.1) rfl

theorem schemeSplit_valid (s r : List Char) (h : ValidLowerScheme s) :
    schemeSplit (s ++ ':' :: r) = (s, r) := by
  have hnc : ':' ∉ s := validLowerScheme_no_colon _ h
  obtain ⟨c, cs, rfl, h1, h2, h3⟩ := h
  simp only [schemeSplit]
  rw [splitOnceChar_append ':' (c :: cs) r hnc]
  simp [h1, h2, h3]

theorem schemeSplit_fst_nil (l : List Char) (h : (schemeSplit l).1 = []) :
    noSchemeIn l ∧ (schemeSplit l).2 = l := by
  cases hsp : splitOnceChar ':' l with
  | none =>
    constructor
    · intro a b hx
      rw [hsp] at hx
      cases hx
    · simp [schemeSplit, hsp]
  | some q =>
    obtain ⟨a, b⟩ := q
    cases a with
    | nil =>
      constructor
      · intro a' b' hx
        rw [hsp] at hx
        simp only [Option.some.injEq, Prod.mk.injEq] at hx
        exact Or.inl hx.1.symm
      · simp [schemeSplit, hsp]
    | cons c cs =>
      by_cases hcond : (isAsciiAlpha c && cs.all isSchemeChar) = true
      · exfalso
        have heq : schemeSplit l = ((c :: cs).map pyCharLower, b) := by
          simp [schemeSplit, hsp, hcond]
        rw [heq] at h
        simp at h
      · constructor
        · intro a' b' hx
          rw [hsp] at hx
          simp only [Option.some.injEq, Prod.mk.injEq] at hx
          obtain ⟨ha, _⟩ := hx
          right
          rw [Bool.and_eq_true] at hcond
          rcases not_and_or.mp hcond with hh | hh
          · simp only [Bool.not_eq_true] at hh
            exact ⟨c, cs, ha.symm, Or.inl hh⟩
          · simp only [Bool.not_eq_true] at hh
            exact ⟨c, cs, ha.symm, Or.inr hh⟩
        · simp [schemeSplit, hsp, hcond]

theorem schemeSplit_fst_valid (l : List Char) :
    (schemeSplit l).1 = [] ∨ ValidLowerScheme (schemeSplit l).1 := by
  cases hsp : splitOnceChar ':' l with
  | none => left; simp [schemeSplit, hsp]
  | some q =>
    obtain ⟨a, b⟩ := q
    cases a with
    | nil => left; simp [schemeSplit, hsp]
    | cons c cs =>
      by_cases hcond : (isAsciiAlpha c && cs.all isSchemeChar) = true
      · right
        have heq : schemeSplit l = ((c :: cs).map pyCharLower, b) := by
          simp [schemeSplit, hsp, hcond]
        rw [heq]
        rw [Bool.and_eq_true] at hcond
        refine ⟨pyCharLower c, cs.map pyCharLower, by simp,
          isAsciiAlpha_pyCharLower c hcond.1, ?_, ?_⟩
        · rw [List.all_eq_true]
          intro d hd
          rcases List.mem_map.mp hd with ⟨e, he, rfl⟩
          exact isSchemeChar_pyCharLower e ((List.all_eq_true.mp hcond.2) e he)
        · simpa using map_pyCharLower_idem (c :: cs)
      · left; simp [schemeSplit, hsp, hcond]

theorem schemeSplit_head_not_alpha (c : Char) (cs : List Char)
    (h : isAsciiAlpha c = false) : schemeSplit (c :: cs) = ([], c :: cs) := by
  cases hsp : splitOnceChar ':' (c :: cs) with
  | none => simp [schemeSplit, hsp]
  | some q =>
    obtain ⟨a, b⟩ := q
    cases a with
    | nil => simp [schemeSplit, hsp]
    | cons a0 rest =>
      obtain ⟨hl, _⟩ := splitOnceChar_eq_some ':' _ _ _ hsp
      rw [List.cons_append] at hl
      injection hl with h1 _
      subst h1
      simp [schemeSplit, hsp, h]

theorem takeWhile_append_of_all (p : Char → Bool) :
    ∀ (n x : List Char), (∀ c ∈ n, p c = true) →
      (n ++ x).takeWhile p = n ++ x.takeWhile p ∧
      (n ++ x).dropWhile p = x.dropWhile p := by
  intro n
  induction n with
  | nil => intro x _; simp
  | cons c t ih =>
    intro x hn
    have hc : p c = true := hn c (List.mem_cons_self _ _)
    have ht := ih x (fun d hd => hn d (List.mem_cons_of_mem _ hd))
    simp [List.takeWhile_cons, List.dropWhile_cons, hc, ht.1, ht.2]

theorem takeWhile_head_not (p : Char → Bool) (x : List Char)
    (hx : x = [] ∨ ∃ c cs, x = c :: cs ∧ p c = false) :
    x.takeWhile p = [] ∧ x.dropWhile p = x := by
  rcases hx with rfl | ⟨c, cs, rfl, hc⟩
  · simp
  · simp [List.takeWhile_cons, List.dropWhile_cons, hc]

theorem netlocSplit_roundtrip (n x : List Char)
    (hn : ∀ c ∈ n, netChar c = true ∧ c ≠ '[' ∧ c ≠ ']')
    (hx : x = [] ∨ ∃ t, x = '/' :: t) :
    netlocSplit ('/' :: '/' :: (n ++ x)) = some (n, x) := by
  have htd := takeWhile_append_of_all netChar n x (fun c hc => (hn c hc).1)
  have hxh : x.takeWhile netChar = [] ∧ x.dropWhile netChar = x := by
    apply takeWhile_head_not
    rcases hx with rfl | ⟨t, rfl⟩
    · exact Or.inl rfl
    · exact Or.inr ⟨'/', t, rfl, by decide⟩
  have h2 : ('/' :: '/' :: (n ++ x)).take 2 = ['/', '/'] := rfl
  have h3 : ('/' :: '/' :: (n ++ x)).drop 2 = n ++ x := rfl
  have hbr : ¬('[' ∈ (n ++ x).takeWhile netChar ∨
      ']' ∈ (n ++ x).takeWhile netChar) := by
    rw [htd.1, hxh.1, List.append_nil]
    rintro (hm | hm)
    · exact (hn _ hm).2.1 rfl
    · exact (hn _ hm).2.2 rfl
  simp only [netlocSplit, h2, if_pos, h3]
  rw [if_neg hbr, htd.1, htd.2, hxh.1, hxh.2, List.append_nil]

theorem netlocSplit_not_ss (l : List Char) (h : l.take 2 ≠ ['/', '/']) :
    netlocSplit l = some ([], l) := by
  simp only [netlocSplit, if_neg h]

theorem dropFrag_of_not_mem (l : List Char) (h : '#' ∉ l) : dropFrag l = l := by
  simp [dropFrag, splitOnceChar_of_not_mem '#' l h]

theorem dropQuery_of_not_mem (l : List Char) (h : '?' ∉ l) :
    dropQuery l = l := by
  simp [dropQuery, splitOnceChar_of_not_mem '?' l h]

theorem dropFrag_prefList (l : List Char) : ∃ t, l = dropFrag l ++ t := by
  cases hsp : splitOnceChar '#' l with
  | none => exact ⟨[], by simp [dropFrag, hsp]⟩
  | some q =>
    obtain ⟨a, b⟩ := q
    obtain ⟨hl, _⟩ := splitOnceChar_eq_some _ _ _ _ hsp
    exact ⟨'#' :: b, by simp [dropFrag, hsp]; exact hl⟩

theorem dropQuery_prefList (l : List Char) : ∃ t, l = dropQuery l ++ t := by
  cases hsp : splitOnceChar '?' l with
  | none => exact ⟨[], by simp [dropQuery, hsp]⟩
  | some q =>
    obtain ⟨a, b⟩ := q
    obtain ⟨hl, _⟩ := splitOnceChar_eq_some _ _ _ _ hsp
    exact ⟨'?' :: b, by simp [dropQuery, hsp]; exact hl⟩

theorem not_mem_dropFrag (l : List Char) : '#' ∉ dropFrag l := by
  cases hsp : splitOnceChar '#' l with
  | none =>
    simp only [dropFrag, hsp]
    exact splitOnceChar_eq_none _ _ hsp
  | some q =>
    obtain ⟨a, b⟩ := q
    simp only [dropFrag, hsp]
    exact (splitOnceChar_eq_some _ _ _ _ hsp).2

theorem not_mem_dropQuery (l : List Char) : '?' ∉ dropQuery l := by
  cases hsp : splitOnceChar '?' l with
  | none =>
    simp only [dropQuery, hsp]
    exact splitOnceChar_eq_none _ _ hsp
  | some q =>
    obtain ⟨a, b⟩ := q
    simp only [dropQuery, hsp]
    exact (splitOnceChar_eq_some _ _ _ _ hsp).2

theorem dropFrag_head (c : Char) (cs : List Char) (h : c ≠ '#') :
    dropFrag (c :: cs) = [] ∨ ∃ ds, dropFrag (c :: cs) = c :: ds := by
  cases hsp : splitOnceChar '#' (c :: cs) with
  | none => exact Or.inr ⟨cs, by simp [dropFrag, hsp]⟩
  | some q =>
    obtain ⟨a, b⟩ := q
    obtain ⟨hl, _⟩ := splitOnceChar_eq_some _ _ _ _ hsp
    cases a with
    | nil =>
      rw [List.nil_append] at hl
      injection hl with h1 _
      exact absurd h1 h
    | cons a0 rest =>
      rw [List.cons_append] at hl
      injection hl with h1 _
      subst h1
      exact Or.inr ⟨rest, by simp [dropFrag, hsp]⟩

theorem dropQuery_head (c : Char) (cs : List Char) (h : c ≠ '?') :
    dropQuery (c :: cs) = [] ∨ ∃ ds, dropQuery (c :: cs) = c :: ds := by
  cases hsp : splitOnceChar '?' (c :: cs) with
  | none => exact Or.inr ⟨cs, by simp [dropQuery, hsp]⟩
  | some q =>
    obtain ⟨a, b⟩ := q
    obtain ⟨hl, _⟩ := splitOnceChar_eq_some _ _ _ _ hsp
    cases a with
    | nil =>
      rw [List.nil_append] at hl
      injection hl with h1 _
      exact absurd h1 h
    | cons a0 rest =>
      rw [List.cons_append] at hl
      injection hl with h1 _
      subst h1
      exact Or.inr ⟨rest, by simp [dropQuery, hsp]⟩

theorem paramsPath_no_semi (s p : List Char) (h : ';' ∉ p) :
    paramsPath s p = p := by
  simp only [paramsPath]
  rw [if_neg]
  rintro ⟨_, hm⟩
  exact h hm

theorem noSchemeIn_of_prefList (p p' t : List Char) (hp : p = p' ++ t)
    (h : noSchemeIn p) : noSchemeIn p' := by
  intro a b hsp
  obtain ⟨hl, hm⟩ := splitOnceChar_eq_some _ _ _ _ hsp
  have hp2 : splitOnceChar ':' p = some (a, b ++ t) := by
    have : p = a ++ ':' :: (b ++ t) := by
      rw [hp, hl]
      simp
    rw [this]
    exact splitOnceChar_append _ _ _ hm
  exact h a (b ++ t) hp2

theorem noSchemeIn_head_not_alpha (c : Char) (cs : List Char)
    (h : isAsciiAlpha c = false) : noSchemeIn (c :: cs) := by
  intro a b hsp
  obtain ⟨hl, _⟩ := splitOnceChar_eq_some _ _ _ _ hsp
  cases a with
  | nil => exact Or.inl rfl
  | cons a0 rest =>
    right
    rw [List.cons_append] at hl
    injection hl with h1 _
    exact ⟨a0, rest, rfl, Or.inl (h1 ▸ h)⟩

theorem take2_shape (l : List Char) (h : l.take 2 = ['/', '/']) :
    ∃ t, l = '/' :: '/' :: t := by
  cases l with
  | nil => simp at h
  | cons c1 t1 =>
    cases t1 with
    | nil => simp at h
    | cons c2 t2 =>
      simp [List.take] at h
      obtain ⟨rfl, rfl⟩ := h
      exact ⟨t2, rfl⟩

theorem take2_of_prefList (p p' t : List Char) (hp : p = p' ++ t)
    (h : p'.take 2 = ['/', '/']) : p.take 2 = ['/', '/'] := by
  obtain ⟨u, rfl⟩ := take2_shape p' h
  rw [hp]
  rfl

theorem stripUnsafe_head (u : List Char) :
    ∀ c cs, stripUnsafe u = c :: cs → 32 < c.toNat := by
  intro c cs h
  simp only [stripUnsafe] at h
  cases hxx : u.dropWhile fun c => decide (c.toNat ≤ 32) with
  | nil => rw [hxx] at h; simp at h
  | cons d ds =>
    have hd : ¬(d.toNat ≤ 32) := by
      have := dropWhileChar_head_false _ u d ds hxx
      simpa using this
    rw [hxx, List.filter_cons] at h
    have hq : (decide ¬(d = '\t' ∨ d = '\r' ∨ d = '\n')) = true := by
      simp only [decide_eq_true_eq]
      rintro (he | he | he) <;> subst he <;> exact hd (by decide)
    rw [if_pos hq] at h
    injection h with h1 _
    subst h1
    omega

theorem mem_stripUnsafe (u : List Char) : ∀ c ∈ stripUnsafe u, c ∈ u := by
  intro c hc
  simp only [stripUnsafe] at hc
  exact (List.dropWhile_sublist _).subset ((List.filter_sublist _).subset hc)

theorem stripUnsafe_clean_chars (u : List Char) :
    ∀ c ∈ stripUnsafe u, c ≠ '\t' ∧ c ≠ '\r' ∧ c ≠ '\n' := by
  intro c hc
  simp only [stripUnsafe, List.mem_filter, decide_eq_true_eq] at hc
  exact ⟨fun he => hc.2 (Or.inl he), fun he => hc.2 (Or.inr (Or.inl he)),
    fun he => hc.2 (Or.inr (Or.inr he))⟩

theorem stripUnsafe_eq_self (l : List Char)
    (hhead : ∀ c cs, l = c :: cs → 32 < c.toNat)
    (hcls : ∀ c ∈ l, c ≠ '\t' ∧ c ≠ '\r' ∧ c ≠ '\n') :
    stripUnsafe l = l := by
  have h1 : (l.dropWhile fun c => decide (c.toNat ≤ 32)) = l := by
    cases l with
    | nil => rfl
    | cons c cs =>
      rw [List.dropWhile_cons_of_neg]
      have := hhead c cs rfl
      simp only [decide_eq_true_eq]
      omega
  simp only [stripUnsafe, h1]
  apply List.filter_eq_self.mpr
  intro c hc
  obtain ⟨ha, hb, hcn⟩ := hcls c hc
  simp only [decide_eq_true_eq]
  rintro (he | he | he)
  · exact ha he
  · exact hb he
  · exact hcn he

theorem noSchemeIn_nil : noSchemeIn [] := by
  intro a b h
  simp [splitOnceChar] at h

theorem netChar_false (c : Char) (h : netChar c = false) :
    c = '/' ∨ c = '?' ∨ c = '#' := by
  simp only [netChar] at h
  rw [decide_eq_false_iff_not] at h
  by_cases h1 : c = '/'
  · exact Or.inl h1
  · by_cases h2 : c = '?'
    · exact Or.inr (Or.inl h2)
    · by_cases h3 : c = '#'
      · exact Or.inr (Or.inr h3)
      · exact absurd ⟨h1, h2, h3⟩ h

theorem dropFrag_hash (ds : List Char) : dropFrag ('#' :: ds) = [] := by
  simp [dropFrag, splitOnceChar]

theorem dropQuery_qm (ds : List Char) : dropQuery ('?' :: ds) = [] := by
  simp [dropQuery, splitOnceChar]

theorem schemeSplit_snd_subset (l : List Char) :
    ∀ c ∈ (schemeSplit l).2, c ∈ l := by
  intro c hc
  cases hsp : splitOnceChar ':' l with
  | none =>
    rw [show (schemeSplit l).2 = l by simp [schemeSplit, hsp]] at hc
    exact hc
  | some q =>
    obtain ⟨a, b⟩ := q
    cases a with
    | nil =>
      rw [show (schemeSplit l).2 = l by simp [schemeSplit, hsp]] at hc
      exact hc
    | cons c0 cs =>
      by_cases hcond : (isAsciiAlpha c0 && cs.all isSchemeChar) = true
      · have h2 : (schemeSplit l).2 = b := by simp [schemeSplit, hsp, hcond]
        rw [h2] at hc
        obtain ⟨hl, _⟩ := splitOnceChar_eq_some _ _ _ _ hsp
        rw [hl]
        exact List.mem_append_right _ (List.mem_cons_of_mem _ hc)
      · rw [show (schemeSplit l).2 = l by simp [schemeSplit, hsp, hcond]] at hc
        exact hc

/-- The path produced from the remainder after netloc extraction is empty
or starts with the character that remainder starts with, provided that
character is not `#` or `?`. -/
theorem path_shape_of_rest (rest : List Char)
    (hhead : rest = [] ∨ ∃ d ds, rest = d :: ds ∧ (d = '/' ∨ d = '?' ∨ d = '#')) :
    dropQuery (dropFrag rest) = [] ∨
      ∃ t, dropQuery (dropFrag rest) = '/' :: t := by
  rcases hhead with rfl | ⟨d, ds, rfl, hd⟩
  · exact Or.inl rfl
  rcases hd with rfl | rfl | rfl
  · rcases dropFrag_head '/' ds (by decide) with hz | ⟨es, hes⟩
    · rw [hz]
      exact Or.inl rfl
    · rw [hes]
      rcases dropQuery_head '/' es (by decide) with hz | ⟨fs, hfs⟩
      · rw [hz]
        exact Or.inl (by rfl)
      · rw [hfs]
        exact Or.inr ⟨fs, rfl⟩
  · rcases dropFrag_head '?' ds (by decide) with hz | ⟨es, hes⟩
    · rw [hz]
      exact Or.inl rfl
    · rw [hes, dropQuery_qm]
      exact Or.inl rfl
  · rw [dropFrag_hash]
    exact Or.inl rfl

theorem parse_good (u : List Char) (hsemi : ';' ∉ u) (s n p : List Char)
    (h : pyUrlparse3 u = some (s, n, p)) : GoodTriple s n p := by
  have hsub2 := mem_stripUnsafe u
  have hsemi2 : ';' ∉ stripUnsafe u := fun hm => hsemi (hsub2 _ hm)
  simp only [pyUrlparse3] at h
  cases hns : netlocSplit (schemeSplit (stripUnsafe u)).2 with
  | none => rw [hns] at h; cases h
  | some q =>
    obtain ⟨nl, rest⟩ := q
    rw [hns] at h
    simp only [Option.some.injEq, Prod.mk.injEq] at h
    obtain ⟨rfl, rfl, rfl⟩ := h
    by_cases hss : ((schemeSplit (stripUnsafe u)).2).take 2 = ['/', '/']
    · -- netloc branch
      simp only [netlocSplit, if_pos hss] at hns
      split at hns
      next => cases hns
      next hbr =>
        simp only [Option.some.injEq, Prod.mk.injEq] at hns
        obtain ⟨rfl, rfl⟩ := hns
        have hnl_sub : ∀ c ∈ ((schemeSplit (stripUnsafe u)).2.drop 2).takeWhile
            netChar, c ∈ stripUnsafe u := by
          intro c hc
          exact schemeSplit_snd_subset _ c (List.drop_subset _ _
            ((List.takeWhile_sublist _).subset hc))
        have hrest_sub : ∀ c ∈ ((schemeSplit (stripUnsafe u)).2.drop 2).dropWhile
            netChar, c ∈ stripUnsafe u := by
          intro c hc
          exact schemeSplit_snd_subset _ c (List.drop_subset _ _
            ((List.dropWhile_sublist _).subset hc))
        have hmem_p : ∀ c ∈ dropQuery (dropFrag
            (((schemeSplit (stripUnsafe u)).2.drop 2).dropWhile netChar)),
            c ∈ stripUnsafe u := by
          obtain ⟨t1, ht1⟩ := dropFrag_prefList
            (((schemeSplit (stripUnsafe u)).2.drop 2).dropWhile netChar)
          obtain ⟨t2, ht2⟩ := dropQuery_prefList (dropFrag
            (((schemeSplit (stripUnsafe u)).2.drop 2).dropWhile netChar))
          intro c hc
          apply hrest_sub
          rw [ht1]
          apply List.mem_append_left
          rw [ht2]
          exact List.mem_append_left _ hc
        have hpsemi : ';' ∉ dropQuery (dropFrag
            (((schemeSplit (stripUnsafe u)).2.drop 2).dropWhile netChar)) :=
          fun hm => hsemi2 (hmem_p _ hm)
        have hshape := path_shape_of_rest
          (((schemeSplit (stripUnsafe u)).2.drop 2).dropWhile netChar)
          (by
            cases hdw : ((schemeSplit (stripUnsafe u)).2.drop 2).dropWhile
                netChar with
            | nil => exact Or.inl rfl
            | cons d ds =>
              exact Or.inr ⟨d, ds, rfl,
                netChar_false d (dropWhileChar_head_false _ _ _ _ hdw)⟩)
        rw [paramsPath_no_semi _ _ hpsemi]
        refine ⟨schemeSplit_fst_valid _, ?_, ?_, ?_, ?_⟩
        · intro c hc
          refine ⟨List.mem_takeWhile_imp hc, ?_, ?_, ?_, ?_, ?_⟩
          · intro he
            exact hbr (Or.inl (he ▸ hc))
          · intro he
            exact hbr (Or.inr (he ▸ hc))
          · exact (stripUnsafe_clean_chars u c (hnl_sub c hc)).1
          · exact (stripUnsafe_clean_chars u c (hnl_sub c hc)).2.1
          · exact (stripUnsafe_clean_chars u c (hnl_sub c hc)).2.2
        · intro c hc
          refine ⟨?_, ?_, ?_, ?_, ?_, ?_⟩
          · intro he
            exact not_mem_dropQuery _ (he ▸ hc)
          · intro he
            apply not_mem_dropFrag
              (((schemeSplit (stripUnsafe u)).2.drop 2).dropWhile netChar)
            obtain ⟨t2, ht2⟩ := dropQuery_prefList (dropFrag
              (((schemeSplit (stripUnsafe u)).2.drop 2).dropWhile netChar))
            rw [ht2]
            exact List.mem_append_left _ (he ▸ hc)
          · intro he
            exact hpsemi (he ▸ hc)
          · exact (stripUnsafe_clean_chars u c (hmem_p c hc)).1
          · exact (stripUnsafe_clean_chars u c (hmem_p c hc)).2.1
          · exact (stripUnsafe_clean_chars u c (hmem_p c hc)).2.2
        · intro _
          exact hshape
        · rintro ⟨_, _, _⟩
          rcases hshape with hz | ⟨t, ht⟩
          · rw [hz]
            exact ⟨noSchemeIn_nil, by intro c cs he; cases he⟩
          · rw [ht]
            refine ⟨noSchemeIn_head_not_alpha '/' t (by decide), ?_⟩
            intro c cs he
            injection he with h1 _
            subst h1
            decide
    · -- no netloc
      rw [netlocSplit_not_ss _ hss] at hns
      simp only [Option.some.injEq, Prod.mk.injEq] at hns
      obtain ⟨rfl, rfl⟩ := hns
      have hrest_sub : ∀ c ∈ (schemeSplit (stripUnsafe u)).2,
          c ∈ stripUnsafe u := schemeSplit_snd_subset _
      have hmem_p : ∀ c ∈ dropQuery (dropFrag (schemeSplit (stripUnsafe u)).2),
          c ∈ stripUnsafe u := by
        obtain ⟨t1, ht1⟩ := dropFrag_prefList (schemeSplit (stripUnsafe u)).2
        obtain ⟨t2, ht2⟩ := dropQuery_prefList
          (dropFrag (schemeSplit (stripUnsafe u)).2)
        intro c hc
        apply hrest_sub
        rw [ht1]
        apply List.mem_append_left
        rw [ht2]
        exact List.mem_append_left _ hc
      have hpsemi : ';' ∉ dropQuery (dropFrag (schemeSplit (stripUnsafe u)).2) :=
        fun hm => hsemi2 (hmem_p _ hm)
      rw [paramsPath_no_semi _ _ hpsemi]
      refine ⟨schemeSplit_fst_valid _, ?_, ?_, ?_, ?_⟩
      · intro c hc
        cases hc
      · intro c hc
        refine ⟨?_, ?_, ?_, ?_, ?_, ?_⟩
        · intro he
          exact not_mem_dropQuery _ (he ▸ hc)
        · intro he
          apply not_mem_dropFrag (schemeSplit (stripUnsafe u)).2
          obtain ⟨t2, ht2⟩ := dropQuery_prefList
            (dropFrag (schemeSplit (stripUnsafe u)).2)
          rw [ht2]
          exact List.mem_append_left _ (he ▸ hc)
        · intro he
          exact hpsemi (he ▸ hc)
        · exact (stripUnsafe_clean_chars u c (hmem_p c hc)).1
        · exact (stripUnsafe_clean_chars u c (hmem_p c hc)).2.1
        · exact (stripUnsafe_clean_chars u c (hmem_p c hc)).2.2
      · rintro (hnl | hpss)
        · exact absurd rfl hnl
        · obtain ⟨t, ht⟩ := take2_shape _ hpss
          exact Or.inr ⟨'/' :: t, ht⟩
      · rintro ⟨hs0, _, _⟩
        obtain ⟨hnos, hsnd⟩ := schemeSplit_fst_nil _ hs0
        obtain ⟨t1, ht1⟩ := dropFrag_prefList (schemeSplit (stripUnsafe u)).2
        obtain ⟨t2, ht2⟩ := dropQuery_prefList
          (dropFrag (schemeSplit (stripUnsafe u)).2)
        have hpref : stripUnsafe u =
            dropQuery (dropFrag (schemeSplit (stripUnsafe u)).2) ++
              (t2 ++ t1) := by
          calc stripUnsafe u = (schemeSplit (stripUnsafe u)).2 := hsnd.symm
            _ = dropFrag (schemeSplit (stripUnsafe u)).2 ++ t1 := ht1
            _ = (dropQuery (dropFrag (schemeSplit (stripUnsafe u)).2) ++ t2)
                ++ t1 := by rw [← ht2]
            _ = _ := by rw [List.append_assoc]
        constructor
        · exact noSchemeIn_of_prefList _ _ _ hpref hnos
        · intro c cs he
          apply stripUnsafe_head u c (cs ++ (t2 ++ t1))
          rw [hpref, he]
          rfl

theorem schemeSplit_of_noScheme (l : List Char) (h : noSchemeIn l) :
    schemeSplit l = ([], l) := by
  cases hsp : splitOnceChar ':' l with
  | none => simp [schemeSplit, hsp]
  | some q =>
    obtain ⟨a, b⟩ := q
    rcases h a b hsp with rfl | ⟨c, cs, rfl, hbad⟩
    · simp [schemeSplit, hsp]
    · rcases hbad with h1 | h1 <;> simp [schemeSplit, hsp, h1]

theorem validLowerScheme_safe (s : List Char) (h : ValidLowerScheme s) :
    ∀ c ∈ s, 32 < c.toNat ∧ c ≠ '\t' ∧ c ≠ '\r' ∧ c ≠ '\n' := by
  intro c hc
  have hf := isSchemeChar_facts c ((validLowerScheme_chars s h).2 c hc)
  exact ⟨hf.1, hf.2.2.1, hf.2.2.2.1, hf.2.2.2.2⟩

theorem mem_rstripSlash (p : List Char) : ∀ c ∈ rstripSlash p, c ∈ p := by
  obtain ⟨t, ht⟩ := rstripSlash_prefix p
  intro c hc
  rw [ht]
  exact List.mem_append_left _ hc

theorem stripUnsafe_scheme_colon (s w : List Char) (hvs : ValidLowerScheme s)
    (hw : ∀ c ∈ w, c ≠ '\t' ∧ c ≠ '\r' ∧ c ≠ '\n') :
    stripUnsafe (s ++ ':' :: w) = s ++ ':' :: w := by
  apply stripUnsafe_eq_self
  · intro c cs he
    obtain ⟨c0, cs0, rfl, h1, _, _⟩ := hvs
    rw [List.cons_append] at he
    injection he with hc _
    exact hc ▸ (isSchemeChar_facts c0 (isAsciiAlpha_schemeChar c0 h1)).1
  · intro c hc
    rcases List.mem_append.mp hc with hcs | hcw
    · exact (validLowerScheme_safe s hvs c hcs).2
    · rcases List.mem_cons.mp hcw with rfl | hcw2
      · exact ⟨by decide, by decide, by decide⟩
      · exact hw c hcw2

theorem stripUnsafe_slashslash (w : List Char)
    (hw : ∀ c ∈ w, c ≠ '\t' ∧ c ≠ '\r' ∧ c ≠ '\n') :
    stripUnsafe ('/' :: '/' :: w) = '/' :: '/' :: w := by
  apply stripUnsafe_eq_self
  · intro c cs he
    injection he with h1 _
    rw [← h1]
    decide
  · intro c hc
    rcases List.mem_cons.mp hc with rfl | hc2
    · exact ⟨by decide, by decide, by decide⟩
    · rcases List.mem_cons.mp hc2 with rfl | hc3
      · exact ⟨by decide, by decide, by decide⟩
      · exact hw c hc3

theorem pyUrlparse3_eq (url s n mid rest : List Char)
    (h1 : stripUnsafe url = url)
    (h2 : schemeSplit url = (s, mid))
    (h3 : netlocSplit mid = some (n, rest))
    (h4 : '#' ∉ rest) (h5 : '?' ∉ rest) (h6 : ';' ∉ rest) :
    pyUrlparse3 url = some (s, n, rest) := by
  simp only [pyUrlparse3, h1, h2]
  rw [h3]
  simp only [dropFrag_of_not_mem _ h4, dropQuery_of_not_mem _ h5,
    paramsPath_no_semi _ _ h6]

theorem rstripSlash_scheme_colon (s w : List Char) :
    rstripSlash (s ++ ':' :: w) =
      if rstripSlash w = [] then s ++ [':']
      else (s ++ [':']) ++ rstripSlash w := by
  have he : s ++ ':' :: w = (s ++ [':']) ++ w := by simp
  rw [he, rstripSlash_append]
  by_cases hw : rstripSlash w = []
  · rw [if_pos hw, if_pos hw, rstripSlash_append s [':'],
      rstripSlash_single ':' (by decide), if_neg (by simp)]
  · rw [if_neg hw, if_neg hw]

theorem clean_roundtrip (s n p : List Char) (hg : GoodTriple s n p)
    (hR : rstripSlash (pyUrlunsplit3 s n p) ≠ []) :
    ∃ q, pyUrlparse3 (rstripSlash (pyUrlunsplit3 s n p)) = some (s, n, q) ∧
      rstripSlash (pyUrlunsplit3 s n q) = rstripSlash (pyUrlunsplit3 s n p) := by
  obtain ⟨hs, hn, hp, hslash, hnoscheme⟩ := hg
  have hpsafe : ∀ c ∈ p, c ≠ '\t' ∧ c ≠ '\r' ∧ c ≠ '\n' :=
    fun c hc => ⟨(hp c hc).2.2.2.1, (hp c hc).2.2.2.2.1, (hp c hc).2.2.2.2.2⟩
  have hnsafe : ∀ c ∈ n, c ≠ '\t' ∧ c ≠ '\r' ∧ c ≠ '\n' :=
    fun c hc =>
      ⟨(hn c hc).2.2.2.1, (hn c hc).2.2.2.2.1, (hn c hc).2.2.2.2.2⟩
  have hYsafe : ∀ c ∈ rstripSlash p, c ≠ '\t' ∧ c ≠ '\r' ∧ c ≠ '\n' :=
    fun c hc => hpsafe c (mem_rstripSlash p c hc)
  have hYhash : '#' ∉ rstripSlash p :=
    fun hm => (hp _ (mem_rstripSlash p _ hm)).2.1 rfl
  have hYqm : '?' ∉ rstripSlash p :=
    fun hm => (hp _ (mem_rstripSlash p _ hm)).1 rfl
  have hYsemi : ';' ∉ rstripSlash p :=
    fun hm => (hp _ (mem_rstripSlash p _ hm)).2.2.1 rfl
  have hYidem : rstripSlash (rstripSlash p) = rstripSlash p := rstripSlash_idem p
  have hn_noslash : ∀ c ∈ n, c ≠ '/' := by
    intro c hc
    have h1 := (hn c hc).1
    simp only [netChar, decide_eq_true_eq] at h1
    exact h1.1
  have hnY : rstripSlash n = n := rstripSlash_no_slash n hn_noslash
  have hnbr : ∀ c ∈ n, netChar c = true ∧ c ≠ '[' ∧ c ≠ ']' :=
    fun c hc => ⟨(hn c hc).1, (hn c hc).2.1, (hn c hc).2.2.1⟩
  by_cases hB : n ≠ [] ∨ p.take 2 = ['/', '/']
  case pos =>
    have hp2 : p = [] ∨ ∃ t, p = '/' :: t := hslash hB
    have hYshape : rstripSlash p = [] ∨ ∃ t, rstripSlash p = '/' :: t := by
      rcases hp2 with hpz | ⟨t, hpt⟩
      · rw [hpz]
        exact Or.inl rfl
      · cases hY : rstripSlash p with
        | nil => exact Or.inl rfl
        | cons y ys =>
          obtain ⟨t', ht'⟩ := rstripSlash_prefix p
          rw [hY, hpt] at ht'
          injection ht' with h1 _
          exact Or.inr ⟨ys, by rw [← h1]⟩
    have hcore : pyUrlunsplit3 s n p =
        if s ≠ [] then s ++ ':' :: ('/' :: '/' :: (n ++ p))
        else '/' :: '/' :: (n ++ p) := by
      simp only [pyUrlunsplit3, if_pos hB]
      rcases hp2 with hpz | ⟨t, hpt⟩
      · rw [hpz]
      · rw [hpt]
        simp
    have hX : rstripSlash (n ++ p) = n ++ rstripSlash p := by
      rw [rstripSlash_append n p]
      by_cases hY0 : rstripSlash p = []
      · rw [if_pos hY0, hY0, List.append_nil, hnY]
      · rw [if_neg hY0]
    have hcoreR : rstripSlash ('/' :: '/' :: (n ++ p)) =
        if n ++ rstripSlash p = [] then []
        else '/' :: '/' :: (n ++ rstripSlash p) := by
      have he : ('/' :: '/' :: (n ++ p)) = ['/', '/'] ++ (n ++ p) := rfl
      rw [he, rstripSlash_append, hX]
      by_cases hXn : n ++ rstripSlash p = []
      · rw [if_pos hXn, if_pos hXn]
        decide
      · rw [if_neg hXn, if_neg hXn]
        rfl
    by_cases hXnil : n ++ rstripSlash p = []
    case pos =>
      obtain ⟨hn0, hY0⟩ := List.append_eq_nil.mp hXnil
      by_cases hs0 : s = []
      · exfalso
        apply hR
        rw [hcore, if_neg (fun hc => hc hs0), hcoreR, if_pos hXnil]
      · have hvs : ValidLowerScheme s := hs.resolve_left hs0
        have hReq : rstripSlash (pyUrlunsplit3 s n p) = s ++ [':'] := by
          rw [hcore, if_pos hs0, rstripSlash_scheme_colon, hcoreR,
            if_pos hXnil, if_pos rfl]
        have hstripR : stripUnsafe (s ++ ':' :: []) = s ++ ':' :: [] :=
          stripUnsafe_scheme_colon s [] hvs (by intro c hc; cases hc)
        have hparse : pyUrlparse3 (s ++ ':' :: []) = some (s, [], []) := by
          refine pyUrlparse3_eq _ _ _ _ _ hstripR (schemeSplit_valid s [] hvs)
            (netlocSplit_not_ss [] (by decide)) ?_ ?_ ?_ <;> simp
        have hnB2 : ¬((([] : List Char)) ≠ [] ∨
            (([] : List Char)).take 2 = ['/', '/']) := by
          rintro (hc | hc)
          · exact hc rfl
          · exact absurd hc (by decide)
        refine ⟨[], ?_, ?_⟩
        · rw [hReq, hn0]
          exact hparse
        · rw [hReq, hn0]
          have hu : pyUrlunsplit3 s [] [] = s ++ ':' :: [] := by
            simp only [pyUrlunsplit3]
            rw [if_neg hnB2, if_pos hs0]
          rw [hu, rstripSlash_scheme_colon,
            if_pos (show rstripSlash ([] : List Char) = [] from rfl)]
    case neg =>
      have hRcore : rstripSlash ('/' :: '/' :: (n ++ p)) =
          '/' :: '/' :: (n ++ rstripSlash p) := by
        rw [hcoreR, if_neg hXnil]
      have hnet : netlocSplit ('/' :: '/' :: (n ++ rstripSlash p)) =
          some (n, rstripSlash p) := netlocSplit_roundtrip n _ hnbr hYshape
      have hB' : n ≠ [] ∨ (rstripSlash p).take 2 = ['/', '/'] := by
        by_cases hn0 : n = []
        · right
          have hYne : rstripSlash p ≠ [] := by
            intro hz
            exact hXnil (by rw [hn0, hz]; rfl)
          have hpss : p.take 2 = ['/', '/'] := by
            rcases hB with hh | hh
            · exact absurd hn0 hh
            · exact hh
          obtain ⟨pt, hpt⟩ := take2_shape p hpss
          obtain ⟨tt, htt⟩ := rstripSlash_prefix p
          cases hYm : rstripSlash p with
          | nil => exact absurd hYm hYne
          | cons y1 ys =>
            cases ys with
            | nil =>
              exfalso
              rw [hYm, hpt] at htt
              injection htt with h1 _
              have hid := rstripSlash_idem p
              rw [hYm, ← h1] at hid
              exact absurd hid (by decide)
            | cons y2 ys2 =>
              rw [hYm, hpt] at htt
              injection htt with h1 hrest
              injection hrest with h2 _
              rw [← h1, ← h2]
              rfl
        · exact Or.inl hn0
      have hunq : pyUrlunsplit3 s n (rstripSlash p) =
          if s ≠ [] then s ++ ':' :: ('/' :: '/' :: (n ++ rstripSlash p))
          else '/' :: '/' :: (n ++ rstripSlash p) := by
        simp only [pyUrlunsplit3, if_pos hB']
        rcases hYshape with hz | ⟨ys, hys⟩
        · rw [hz]
        · rw [hys]
          simp
      have hXq : rstripSlash (n ++ rstripSlash p) = n ++ rstripSlash p := by
        rw [rstripSlash_append n (rstripSlash p), hYidem]
        by_cases hY0 : rstripSlash p = []
        · rw [if_pos hY0, hY0, List.append_nil, hnY]
        · rw [if_neg hY0]
      have hcoreRq : rstripSlash ('/' :: '/' :: (n ++ rstripSlash p)) =
          '/' :: '/' :: (n ++ rstripSlash p) := by
        have he : ('/' :: '/' :: (n ++ rstripSlash p)) =
            ['/', '/'] ++ (n ++ rstripSlash p) := rfl
        rw [he, rstripSlash_append, hXq, if_neg hXnil]
      by_cases hs0 : s = []
      · have hReq : rstripSlash (pyUrlunsplit3 s n p) =
            '/' :: '/' :: (n ++ rstripSlash p) := by
          rw [hcore, if_neg (fun hc => hc hs0), hRcore]
        refine ⟨rstripSlash p, ?_, ?_⟩
        · rw [hReq, hs0]
          refine pyUrlparse3_eq _ _ _ _ _
            (stripUnsafe_slashslash _ ?_)
            (schemeSplit_head_not_alpha '/' _ (by decide))
            hnet hYhash hYqm hYsemi
          intro c hc
          rcases List.mem_append.mp hc with h | h
          · exact hnsafe c h
          · exact hYsafe c h
        · rw [hReq, hunq, if_neg (fun hc => hc hs0), hcoreRq]
      · have hvs : ValidLowerScheme s := hs.resolve_left hs0
        have hReq : rstripSlash (pyUrlunsplit3 s n p) =
            s ++ ':' :: ('/' :: '/' :: (n ++ rstripSlash p)) := by
          rw [hcore, if_pos hs0, rstripSlash_scheme_colon, hRcore,
            if_neg (by simp)]
          simp
        refine ⟨rstripSlash p, ?_, ?_⟩
        · rw [hReq]
          refine pyUrlparse3_eq _ _ _ _ _
            (stripUnsafe_scheme_colon s _ hvs ?_)
            (schemeSplit_valid s _ hvs)
            hnet hYhash hYqm hYsemi
          intro c hc
          rcases List.mem_cons.mp hc with rfl | hc2
          · exact ⟨by decide, by decide, by decide⟩
          · rcases List.mem_cons.mp hc2 with rfl | hc3
            · exact ⟨by decide, by decide, by decide⟩
            · rcases List.mem_append.mp hc3 with h | h
              · exact hnsafe c h
              · exact hYsafe c h
        · rw [hReq, hunq, if_pos hs0, rstripSlash_scheme_colon, hcoreRq,
            if_neg (by simp)]
          simp
  case neg =>
    have hn0 : n = [] := by
      by_contra hc
      exact hB (Or.inl hc)
    have hpss : p.take 2 ≠ ['/', '/'] := fun hc => hB (Or.inr hc)
    subst hn0
    have hcore : pyUrlunsplit3 s [] p =
        if s ≠ [] then s ++ ':' :: p else p := by
      simp only [pyUrlunsplit3, if_neg hB]
    obtain ⟨tt, htt⟩ := rstripSlash_prefix p
    have hYtake : (rstripSlash p).take 2 ≠ ['/', '/'] :=
      fun hc => hpss (take2_of_prefList p _ tt htt hc)
    have hnetq : netlocSplit (rstripSlash p) = some ([], rstripSlash p) :=
      netlocSplit_not_ss _ hYtake
    have hnB' : ¬((([] : List Char)) ≠ [] ∨
        (rstripSlash p).take 2 = ['/', '/']) := by
      rintro (hc | hc)
      · exact hc rfl
      · exact hYtake hc
    by_cases hs0 : s = []
    · have hReq : rstripSlash (pyUrlunsplit3 s [] p) = rstripSlash p := by
        rw [hcore, if_neg (fun hc => hc hs0)]
      obtain ⟨hnos, hhead⟩ := hnoscheme ⟨hs0, rfl, hpss⟩
      have hYnos : noSchemeIn (rstripSlash p) :=
        noSchemeIn_of_prefList p _ tt htt hnos
      have hstripY : stripUnsafe (rstripSlash p) = rstripSlash p := by
        apply stripUnsafe_eq_self
        · intro c cs he
          apply hhead c (cs ++ tt)
          rw [htt, he]
          rfl
        · exact hYsafe
      refine ⟨rstripSlash p, ?_, ?_⟩
      · rw [hReq, hs0]
        exact pyUrlparse3_eq _ _ _ _ _ hstripY
          (schemeSplit_of_noScheme _ hYnos) hnetq hYhash hYqm hYsemi
      · rw [hReq]
        have hcq : pyUrlunsplit3 s [] (rstripSlash p) = rstripSlash p := by
          simp only [pyUrlunsplit3]
          rw [if_neg hnB', if_neg (fun hc => hc hs0)]
        rw [hcq, hYidem]
    · have hvs : ValidLowerScheme s := hs.resolve_left hs0
      have hReq : rstripSlash (pyUrlunsplit3 s [] p) =
          s ++ ':' :: rstripSlash p := by
        rw [hcore, if_pos hs0, rstripSlash_scheme_colon]
        by_cases hY0 : rstripSlash p = []
        · rw [if_pos hY0, hY0]
        · rw [if_neg hY0]
          simp
      have hstripR : stripUnsafe (s ++ ':' :: rstripSlash p) =
          s ++ ':' :: rstripSlash p :=
        stripUnsafe_scheme_colon s _ hvs hYsafe
      refine ⟨rstripSlash p, ?_, ?_⟩
      · rw [hReq]
        exact pyUrlparse3_eq _ _ _ _ _ hstripR (schemeSplit_valid s _ hvs)
          hnetq hYhash hYqm hYsemi
      · rw [hReq]
        have hcq : pyUrlunsplit3 s [] (rstripSlash p) =
            s ++ ':' :: rstripSlash p := by
          simp only [pyUrlunsplit3]
          rw [if_neg hnB', if_pos hs0]
        rw [hcq, rstripSlash_scheme_colon, hYidem]
        by_cases hY0 : rstripSlash p = []
        · rw [if_pos hY0, hY0]
        · rw [if_neg hY0]
          simp

theorem cleanUrl_idem (u : String) (h : ';' ∉ u.data) :
    cleanUrl (cleanUrl u) = cleanUrl u := by
  by_cases hu : u = ""
  · subst hu
    rfl
  · cases hp : pyUrlparse3 u.data with
    | none =>
      have hcu : cleanUrl u = u := by
        simp only [cleanUrl, if_neg hu, hp]
      rw [hcu]
      exact hcu
    | some t =>
      obtain ⟨s, n, p⟩ := t
      have hg : GoodTriple s n p := parse_good u.data h s n p hp
      have hcu : cleanUrl u = String.mk (rstripSlash (pyUrlunsplit3 s n p)) := by
        simp only [cleanUrl, if_neg hu, hp]
      by_cases hRnil : rstripSlash (pyUrlunsplit3 s n p) = []
      · rw [hcu, hRnil]
        rfl
      · obtain ⟨q, hparse, hun⟩ := clean_roundtrip s n p hg hRnil
        have hne : String.mk (rstripSlash (pyUrlunsplit3 s n p)) ≠ "" := by
          intro hco
          apply hRnil
          have hd := congrArg String.data hco
          simpa using hd
        rw [hcu]
        simp only [cleanUrl, if_neg hne]
        rw [hparse]
        simp only [hun]

/-- C8 (counterexample): `_clean_url` is not idempotent — the `urlparse`
params split interacts with trailing-slash stripping: the cleaned form of
`http://h/a/b;p/` is `http://h/a/b;p`, and cleaning that again yields
`http://h/a/b`. -/
theorem C8_counterexample :
    cleanUrl (cleanUrl "http://h/a/b;p/") ≠ cleanUrl "http://h/a/b;p/" := by
  decide

/-- C8 (amended): `_normalize_text` is idempotent and maps empty input to
the empty key, `_clean_url` maps empty input to the empty key, and
`_clean_url` is idempotent on every URL that contains no semicolon (the
params split is the only source of non-idempotence). -/
theorem C8_normalization_idempotent :
    (∀ t : String, normalizeText (normalizeText t) = normalizeText t) ∧
    normalizeText "" = "" ∧ cleanUrl "" = "" ∧
    ∀ u : String, ';' ∉ u.data → cleanUrl (cleanUrl u) = cleanUrl u :=
  ⟨normalizeText_idem, rfl, rfl, cleanUrl_idem⟩

/-- C8 (witness): the amended statement applied to a concrete
semicolon-free URL with a trailing slash. -/
theorem C8_witness :
    (';' ∉ ("http://a.com/x/" : String).data) ∧
    cleanUrl (cleanUrl "http://a.com/x/") = cleanUrl "http://a.com/x/" :=
  ⟨by decide, C8_normalization_idempotent.2.2.2 "http://a.com/x/" (by decide)⟩

set_option maxRecDepth 4000 in
/-- C1 (witness): the amended statement at a concrete small item that fits
the budget. -/
theorem C1_witness :
    (sendDigestChunks "12:00" "" [smallItem]).head!.length ≤ TELEGRAM_LIMIT ∧
    chunkGood (digestHeader "12:00" "") digestFooter
      ((stableSort urgencyDescBool [smallItem]).map renderItem)
      ((sendDigestChunks "12:00" "" [smallItem]).head!) :=
  C1_digest_packing "12:00" "" [smallItem] (by decide)
    ((sendDigestChunks "12:00" "" [smallItem]).head!) (by decide)

end Rasadai
